import Mathlib

/-!
Verification of the archive-unpacking and directory-reconciliation engine
(`unpacking.py`, class `ArchiveExtractor`).

The filesystem is modelled as a tree of named entries (`Ent`), a path as a
list of name components.  Each method of the class, and each `os`/`shutil`
primitive it uses, is embedded as a function on that tree; fallible
operations return `Except String Ent`, mirroring Python exceptions
propagating out of the call.  Archive extraction is modelled through an
oracle mapping each archive path to its outcome (a payload of entries to
write, or one of the exception kinds raised by `zipfile`/`patoolib`).
-/

namespace WotUnpack

/-- A path is a list of name components (`os.path.join` appends one). -/
abbrev Path := List String

/-- A filesystem entry: a regular file with contents, or a directory with
named children. -/
inductive Ent where
  | file (data : String)
  | dir (ch : List (String × Ent))
deriving Repr

/-- First entry in an association list of children with the given name. -/
def findCh : List (String × Ent) → String → Option Ent
  | [], _ => none
  | (k, v) :: rest, n => if k = n then some v else findCh rest n

/-- Replace the first child with the given name, or append it. -/
def setCh : List (String × Ent) → String → Ent → List (String × Ent)
  | [], n, v => [(n, v)]
  | (k, w) :: rest, n, v =>
    if k = n then (n, v) :: rest else (k, w) :: setCh rest n v

/-- Remove every child with the given name. -/
def delCh (ch : List (String × Ent)) (n : String) : List (String × Ent) :=
  ch.filter (fun kv => kv.1 ≠ n)

/-- Resolve a path from an entry (the entry at the empty path is the root). -/
def getE : Ent → Path → Option Ent
  | e, [] => some e
  | .file _, _ :: _ => none
  | .dir ch, n :: p =>
    match findCh ch n with
    | some e => getE e p
    | none => none

/-- Write (`some e`) or delete (`none`) the entry at a nonempty path.
Every intermediate component must exist and be a directory, as for a
Python filesystem operation on that path. -/
def putE : Ent → Path → Option Ent → Except String Ent
  | _, [], _ => .error "putE: empty path"
  | .file _, _ :: _, _ => .error "NotADirectoryError"
  | .dir ch, [n], v =>
    .ok (.dir (match v with
      | some e => setCh ch n e
      | none => delCh ch n))
  | .dir ch, n :: p :: ps, v =>
    match findCh ch n with
    | some sub =>
      match putE sub (p :: ps) v with
      | .ok sub' => .ok (.dir (setCh ch n sub'))
      | .error m => .error m
    | none => .error "FileNotFoundError"

/-- `os.makedirs(path)` (default `exist_ok=False`): create all missing
directories along the path; error if the final component already exists
or a non-directory blocks the way. -/
def mkdirs : Ent → Path → Except String Ent
  | _, [] => .error "FileExistsError"
  | .file _, _ :: _ => .error "NotADirectoryError"
  | .dir ch, [n] =>
    match findCh ch n with
    | some _ => .error "FileExistsError"
    | none => .ok (.dir (setCh ch n (.dir [])))
  | .dir ch, n :: p :: ps =>
    match findCh ch n with
    | some sub =>
      match mkdirs sub (p :: ps) with
      | .ok sub' => .ok (.dir (setCh ch n sub'))
      | .error m => .error m
    | none =>
      match mkdirs (.dir []) (p :: ps) with
      | .ok sub' => .ok (.dir (setCh ch n sub'))
      | .error m => .error m

/-- `os.makedirs(path, exist_ok=True)`: like `mkdirs` but an existing
directory at the final component is accepted (an existing file is not). -/
def mkdirsOk : Ent → Path → Except String Ent
  | e, [] => .ok e
  | .file _, _ :: _ => .error "NotADirectoryError"
  | .dir ch, [n] =>
    match findCh ch n with
    | some (.dir _) => .ok (.dir ch)
    | some (.file _) => .error "FileExistsError"
    | none => .ok (.dir (setCh ch n (.dir [])))
  | .dir ch, n :: p :: ps =>
    match findCh ch n with
    | some sub =>
      match mkdirsOk sub (p :: ps) with
      | .ok sub' => .ok (.dir (setCh ch n sub'))
      | .error m => .error m
    | none =>
      match mkdirsOk (.dir []) (p :: ps) with
      | .ok sub' => .ok (.dir (setCh ch n sub'))
      | .error m => .error m

/-- `os.remove`: delete a file; a directory or a missing path is an error. -/
def removeE (root : Ent) (p : Path) : Except String Ent :=
  match getE root p with
  | some (.file _) => putE root p none
  | some (.dir _) => .error "IsADirectoryError"
  | none => .error "FileNotFoundError"

/-- `shutil.rmtree`: delete a directory tree; a file or a missing path is
an error. -/
def rmtreeE (root : Ent) (p : Path) : Except String Ent :=
  match getE root p with
  | some (.dir _) => putE root p none
  | some (.file _) => .error "NotADirectoryError"
  | none => .error "FileNotFoundError"

/-- `shutil.move(src, dst)` as called by the class: if `dst` is an existing
directory the source is renamed to `dst/base` (error if that already
exists); onto an existing file only a file can be renamed (overwriting);
otherwise the source is renamed to `dst` itself. -/
def moveE (root : Ent) (src dst : Path) (base : String) : Except String Ent :=
  match getE root src with
  | none => .error "FileNotFoundError"
  | some e =>
    match getE root dst with
    | some (.dir _) =>
      if (getE root (dst ++ [base])).isSome then
        .error "shutil.Error: Destination path already exists"
      else
        match putE root src none with
        | .ok r => putE r (dst ++ [base]) (some e)
        | .error m => .error m
    | some (.file _) =>
      match e with
      | .file _ =>
        match putE root src none with
        | .ok r => putE r dst (some e)
        | .error m => .error m
      | .dir _ => .error "NotADirectoryError"
    | none =>
      match putE root src none with
      | .ok r => putE r dst (some e)
      | .error m => .error m

/-- Write file contents at a path, overwriting an existing file; an
existing directory there is an error (as when Python opens it for
writing). -/
def writeFileAt (root : Ent) (p : Path) (data : String) : Except String Ent :=
  match getE root p with
  | some (.dir _) => .error "IsADirectoryError"
  | _ => putE root p (some (.file data))

/-- `shutil.copy2(s, d)` for a source file with contents `data` and base
name `base`: copy into `d/base` when `d` is an existing directory,
otherwise to `d` itself. -/
def copy2E (root : Ent) (data : String) (dst : Path) (base : String) :
    Except String Ent :=
  match getE root dst with
  | some (.dir _) => writeFileAt root (dst ++ [base]) data
  | _ => writeFileAt root dst data

mutual
/-- Copy one (snapshotted) source entry named `name` into directory path
`dst`: a file via `copy2E`, a directory via
`shutil.copytree(..., dirs_exist_ok=True)` (create the destination
directory if needed, then copy each child recursively). -/
def copyInto (root : Ent) (dst : Path) (name : String) (e : Ent) :
    Except String Ent :=
  match e with
  | .file d => copy2E root d (dst ++ [name]) name
  | .dir ch =>
    match mkdirsOk root (dst ++ [name]) with
    | .ok r => copyList r (dst ++ [name]) ch
    | .error m => .error m

/-- Copy a list of (snapshotted) children into directory path `dst`. -/
def copyList (root : Ent) (dst : Path) : List (String × Ent) → Except String Ent
  | [] => .ok root
  | (k, e) :: rest =>
    match copyInto root dst k e with
    | .ok r => copyList r dst rest
    | .error m => .error m
end

/-- Two paths diverge when they differ at some index where both are
defined; operations at one such path cannot affect the entry at the
other. -/
def diverge : Path → Path → Bool
  | a :: p, b :: q => if a = b then diverge p q else true
  | _, _ => false

mutual
/-- Well-formed entry: every directory has distinct child names. -/
def wfEnt : Ent → Bool
  | .file _ => true
  | .dir ch => wfCh ch

/-- Well-formed child list: distinct names, well-formed entries. -/
def wfCh : List (String × Ent) → Bool
  | [] => true
  | (k, e) :: rest => (findCh rest k).isNone && wfEnt e && wfCh rest
end

mutual
/-- Merge compatibility of a source entry with what already sits at its
destination (`none` when nothing does): on every conflicting path the
two entries have the same kind, so the copy loop of `move_folders`
overwrites files with files and merges directories with directories. -/
def compat : Option Ent → Ent → Bool
  | none, _ => true
  | some (.file _), .file _ => true
  | some (.dir _), .file _ => false
  | some (.file _), .dir _ => false
  | some (.dir tch), .dir sch => compatList tch sch

/-- `compat` for every child of a source child list against a target
child list. -/
def compatList (tch : List (String × Ent)) : List (String × Ent) → Bool
  | [] => true
  | (k, e) :: rest => compat (findCh tch k) e && compatList tch rest
end

mutual
/-- Modelled from the spec: the recursive merge disposition of
`moveFolders` — "directories merged recursively, allowing pre-existing
destination content to remain; files overwritten on conflict".
`mergeSpec t s` merges source entry `s` onto target entry `t`. -/
def mergeSpec : Ent → Ent → Ent
  | .dir tch, .dir sch => .dir (mergeList tch sch)
  | _, s => s

/-- Merge every source child onto a target child list, in order. -/
def mergeList (tch : List (String × Ent)) : List (String × Ent) → List (String × Ent)
  | [] => tch
  | (k, e) :: rest =>
    mergeList
      (match findCh tch k with
        | some t => setCh tch k (mergeSpec t e)
        | none => tch ++ [(k, e)]) rest
end

/- ------------------------------------------------------------------
Methods of `ArchiveExtractor` (unpacking.py).
------------------------------------------------------------------ -/

/-- `check_folder_exists` (`os.path.exists`). -/
def check_folder_exists (root : Ent) (p : Path) : Bool :=
  (getE root p).isSome

/-- `create_folder`: `os.makedirs` guarded by an existence check. -/
def create_folder (root : Ent) (p : Path) : Except String Ent :=
  if check_folder_exists root p then .ok root else mkdirs root p

/-- `list_files` (`os.listdir`). -/
def list_files (root : Ent) (p : Path) : Except String (List String) :=
  match getE root p with
  | some (.dir ch) => .ok (ch.map Prod.fst)
  | some (.file _) => .error "NotADirectoryError"
  | none => .error "FileNotFoundError"

/-- `str.endswith(suffix)`: suffix test on the character sequence. -/
def endsWithS (s suffix : String) : Bool := List.isSuffixOf suffix.data s.data

/-- `filter_archive_files`: keep the names ending in `.zip` or `.rar`. -/
def filter_archive_files (files : List String) : List String :=
  files.filter (fun file => endsWithS file ".zip" || endsWithS file ".rar")

/-- `delete_files`: for each name, delete `folder/name` with `os.remove`
if it exists. -/
def delete_files (root : Ent) (files : List String) (folder : Path) :
    Except String Ent :=
  match files with
  | [] => .ok root
  | n :: rest =>
    match
      (if check_folder_exists root (folder ++ [n]) then
        removeE root (folder ++ [n])
      else .ok root) with
    | .ok r => delete_files r rest folder
    | .error m => .error m

/-- `delete_folders`: for each name, delete `folder/name` with
`shutil.rmtree` if it exists. -/
def delete_folders (root : Ent) (folders : List String) (folder : Path) :
    Except String Ent :=
  match folders with
  | [] => .ok root
  | n :: rest =>
    match
      (if check_folder_exists root (folder ++ [n]) then
        rmtreeE root (folder ++ [n])
      else .ok root) with
    | .ok r => delete_folders r rest folder
    | .error m => .error m

/-- One iteration body of the merge branch of `move_folders`: for each
listed item, `copytree` a directory (`dirs_exist_ok=True`) or `copy2`
a file from `srcP/item` to `tgtP/item`. -/
def mergeItems (root : Ent) (srcP tgtP : Path) : List String → Except String Ent
  | [] => .ok root
  | item :: rest =>
    match
      (match getE root (srcP ++ [item]) with
      | some (.dir ch) => copyInto root tgtP item (.dir ch)
      | some (.file d) => copy2E root d (tgtP ++ [item]) item
      | none => .error "FileNotFoundError") with
    | .ok r => mergeItems r srcP tgtP rest
    | .error m => .error m

/-- The per-name loop of `move_folders`: skip an absent source subfolder;
merge into an existing target subfolder (copy every child, then
`rmtree` the source); otherwise `shutil.move` the subfolder. -/
def move_foldersLoop (root : Ent) (src tgt : Path) :
    List String → Except String Ent
  | [] => .ok root
  | name :: rest =>
    match
      (if check_folder_exists root (src ++ [name]) then
        if check_folder_exists root (tgt ++ [name]) then
          match list_files root (src ++ [name]) with
          | .ok items =>
            match mergeItems root (src ++ [name]) (tgt ++ [name]) items with
            | .ok r => rmtreeE r (src ++ [name])
            | .error m => .error m
          | .error m => .error m
        else moveE root (src ++ [name]) tgt name
      else .ok root) with
    | .ok r => move_foldersLoop r src tgt rest
    | .error m => .error m

/-- `move_folders`: create the target folder, then process each name. -/
def move_folders (root : Ent) (folders : List String) (src tgt : Path) :
    Except String Ent :=
  match create_folder root tgt with
  | .ok r => move_foldersLoop r src tgt folders
  | .error m => .error m

/-- `move_file`: create the target folder, then `shutil.move` the named
file if present. -/
def move_file (root : Ent) (name : String) (src tgt : Path) :
    Except String Ent :=
  match create_folder root tgt with
  | .ok r =>
    if check_folder_exists r (src ++ [name]) then moveE r (src ++ [name]) tgt name
    else .ok r
  | .error m => .error m

/-- The loop over `["res_mods", "mods"]` inside `process_wg_folder`. -/
def wgSubLoop (root : Ent) (wgP outP : Path) : List String → Except String Ent
  | [] => .ok root
  | sub :: rest =>
    match
      (if check_folder_exists root (wgP ++ [sub]) then
        move_folders root [sub] wgP outP
      else .ok root) with
    | .ok r => wgSubLoop r wgP outP rest
    | .error m => .error m

/-- `process_wg_folder`: if the wrapper folder exists, relocate its
`res_mods`/`mods` children to the output folder, then `rmtree` the
wrapper folder. -/
def process_wg_folder (root : Ent) (outP : Path) (wg : String) :
    Except String Ent :=
  if ¬ check_folder_exists root (outP ++ [wg]) then .ok root
  else
    match wgSubLoop root (outP ++ [wg]) outP ["res_mods", "mods"] with
    | .ok r =>
      if check_folder_exists r (outP ++ [wg]) then rmtreeE r (outP ++ [wg])
      else .ok r
    | .error m => .error m

/- ------------------------------------------------------------------
Archive extraction.
------------------------------------------------------------------ -/

/-- One member of an archive payload: a directory entry or a file entry,
with a path relative to the extraction folder. -/
inductive ZEntry where
  | dirE (rel : Path)
  | fileE (rel : Path) (data : String)

/-- The behaviour of the external archive readers on one archive file:
a payload to write, or the exception they raise. -/
inductive Outcome where
  | payload (entries : List ZEntry)
  | badZip (m : String)
  | patoolError (m : String)
  | otherError (m : String)

/-- The kinds of Python exception alive at the `try` of
`extract_archive`. -/
inductive PyErr where
  | badZip (m : String)
  | patool (m : String)
  | oserr (m : String)

/-- Write one payload member under the output folder, creating parent
directories as `zipfile`/`patoolib` do. -/
def writeZEntry (root : Ent) (outP : Path) : ZEntry → Except String Ent
  | .dirE rel => mkdirsOk root (outP ++ rel)
  | .fileE rel data =>
    match mkdirsOk root (outP ++ rel.dropLast) with
    | .ok r => writeFileAt r (outP ++ rel) data
    | .error m => .error m

/-- Write a payload member list; on the first failure, return the tree as
written so far together with the error (extraction stops midway, files
already written remain). -/
def extractAll (root : Ent) (outP : Path) : List ZEntry → Ent × Option PyErr
  | [] => (root, none)
  | e :: es =>
    match writeZEntry root outP e with
    | .ok r => extractAll r outP es
    | .error m => (root, some (.oserr m))

/-- `os.path.basename` of a nonempty path. -/
def basename (p : Path) : String := p.getLastD ""

/-- Render a configured path the way `unpacking.py`'s `__main__` writes
them (`./download_mods`, `./unpacking_mods`). -/
def pathStr (p : Path) : String := "./" ++ String.intercalate "/" p

/-- The body of the `try` block of `extract_archive`: dispatch on the
suffix, consult the oracle, and either write the payload or raise. -/
def tryExtract (oracle : Path → Outcome) (root : Ent) (ap outP : Path) :
    Ent × Option PyErr :=
  if endsWithS (basename ap) ".zip" ∨ endsWithS (basename ap) ".rar" then
    match oracle ap with
    | .payload es => extractAll root outP es
    | .badZip m => (root, some (.badZip m))
    | .patoolError m => (root, some (.patool m))
    | .otherError m => (root, some (.oserr m))
  else (root, none)

/-- The message printed by the matching `except` clause of
`extract_archive`. -/
def errLog (base : String) : PyErr → String
  | .badZip m => s!"File {base} is not a valid archive: {m}"
  | .patool m => s!"File {base} is not a valid archive: {m}"
  | .oserr m => s!"Error extracting file {base}: {m}"

/-- `extract_archive`: run the `try` body; every exception is caught and
turned into a log line carrying the archive's base name.  The method
never fails: it returns the (possibly partially) written tree and its
log output. -/
def extract_archive (oracle : Path → Outcome) (root : Ent) (ap outP : Path) :
    Ent × List String :=
  match tryExtract oracle root ap outP with
  | (r, some e) => (r, [errLog (basename ap) e])
  | (r, none) =>
    if endsWithS (basename ap) ".zip" ∨ endsWithS (basename ap) ".rar" then
      (r, [s!"File {basename ap} successfully extracted to {pathStr outP}."])
    else (r, [])

/-- The extraction loop of `run` over the filtered archive names. -/
def extractLoop (oracle : Path → Outcome) (root : Ent) (inP outP : Path) :
    List String → Ent × List String
  | [] => (root, [])
  | f :: rest =>
    let s := extract_archive oracle root (inP ++ [f]) outP
    let s' := extractLoop oracle s.1 inP outP rest
    (s'.1, s.2 ++ s'.2)

/- ------------------------------------------------------------------
Configuration constants of `run` / `__main__`.
------------------------------------------------------------------ -/

/-- The input folder path (`./download_mods`). -/
def folder_path : Path := ["download_mods"]

/-- The output folder path (`./unpacking_mods`). -/
def output_folder : Path := ["unpacking_mods"]

/-- The denylist of junk file names removed from the output folder. -/
def files_to_delete : List String :=
  ["Best mods.url",
   "install_mods_wotmod.txt",
   "install_mods.txt",
   "Скачать лучшие моды.url",
   "Установка.txt",
   "Установка .txt",
   "Установка_mods.txt",
   "ВНИМАНИЕ!!! WARNING!!!.txt",
   "ôßΓá¡«ó¬á .txt",
   "æ¬áτáΓ∞ ½πτΦ¿Ñ ¼«ñδ.url",
   "webSite.url",
   "Скачать лучшие моды_1.url"]

/-- The denylist of junk folder names removed from the output folder. -/
def folders_to_delete : List String :=
  ["2 4 8 16",
   "2 4 8 12 16 20 22 25 30",
   "2 4 8 12 16",
   "Lesta"]

/-- The single loose mod file relocated into `mods/2.0.0.1`. -/
def wotmod_file : String := "three-direction-indicator.wotmod"

/-- The legacy numeric-range wrapper folder name. -/
def nested_wrapper : String := "2 3 5 8 13 17 21 24 27 30"

/-- The walk from an entry along a path meets only directories before
running out: no file sits at the entry itself or at a proper ancestor
of the path. -/
def okBranch : Ent → Path → Bool
  | _, [] => true
  | .file _, _ :: _ => false
  | .dir ch, k :: p =>
    match findCh ch k with
    | some e' => okBranch e' p
    | none => true

mutual
/-- Whether a file with the given contents occurs anywhere in the tree. -/
def containsData : Ent → String → Bool
  | .file d, s => d == s
  | .dir ch, s => containsDataL ch s

/-- `containsData` over a child list. -/
def containsDataL : List (String × Ent) → String → Bool
  | [], _ => false
  | (_, e) :: rest, s => containsData e s || containsDataL rest s
end

/-- The root-level output names some reorganization rule may touch: the
two denylists, the vendor wrapper, the relocated folders and file, the
legacy numeric-range wrapper, and the canonical destination roots. -/
def touched_names : List String :=
  files_to_delete ++ folders_to_delete ++
    ["WG", "objects", "scripts", wotmod_file, nested_wrapper, "res_mods", "mods"]

/-- Whether an extraction outcome is an exception of the external archive
reader rather than a payload. -/
def Outcome.isErr : Outcome → Bool
  | .payload _ => false
  | _ => true

/-- The post-extraction reconciliation sequence of `run`: cleanup
(files, then folders), vendor-wrapper unwrap, `objects`/`scripts`
relocation, loose mod-file relocation, nested-mods merge. -/
def reconcile (root : Ent) : Except String Ent :=
  match delete_files root files_to_delete output_folder with
  | .error m => .error m
  | .ok r =>
  match delete_folders r folders_to_delete output_folder with
  | .error m => .error m
  | .ok r =>
  match
    (if check_folder_exists r (output_folder ++ ["WG"]) then
      process_wg_folder r output_folder "WG"
    else .ok r) with
  | .error m => .error m
  | .ok r =>
  match
    move_folders r ["objects", "scripts"] output_folder
      (output_folder ++ ["res_mods", "2.0.0.1"]) with
  | .error m => .error m
  | .ok r =>
  match move_file r wotmod_file output_folder (output_folder ++ ["mods", "2.0.0.1"]) with
  | .error m => .error m
  | .ok r =>
  if check_folder_exists r (output_folder ++ [nested_wrapper, "mods"]) then
    match
      move_folders r ["mods"] (output_folder ++ [nested_wrapper, "mods"])
        (output_folder ++ ["mods"]) with
    | .error m => .error m
    | .ok r =>
      if check_folder_exists r (output_folder ++ [nested_wrapper]) then
        rmtreeE r (output_folder ++ [nested_wrapper])
      else .ok r
  else .ok r

/-- `run`: check the input folder, create the output folder, extract every
archive, then reconcile the output tree.  Returns the final tree and
the log lines of the extraction stage (including the early-exit
message). -/
def run (oracle : Path → Outcome) (root : Ent) :
    Except String (Ent × List String) :=
  if ¬ check_folder_exists root folder_path then
    .ok (root, [s!"Folder {pathStr folder_path} does not exist."])
  else
    match create_folder root output_folder with
    | .error m => .error m
    | .ok r =>
    match list_files r folder_path with
    | .error m => .error m
    | .ok files =>
    let s := extractLoop oracle r folder_path output_folder
      (filter_archive_files files)
    match reconcile s.1 with
    | .error m => .error m
    | .ok r => .ok (r, s.2)

/- ------------------------------------------------------------------
Basic lemmas: child lists, path resolution, divergence.
------------------------------------------------------------------ -/

theorem findCh_setCh_self (ch : List (String × Ent)) (n : String) (v : Ent) :
    findCh (setCh ch n v) n = some v := by
  induction ch with
  | nil => simp [setCh, findCh]
  | cons kv rest ih =>
    obtain ⟨k, w⟩ := kv
    by_cases h : k = n
    · simp [setCh, h, findCh]
    · simp [setCh, h, findCh, ih]

theorem findCh_setCh_ne (ch : List (String × Ent)) {m n : String} (v : Ent)
    (h : m ≠ n) : findCh (setCh ch n v) m = findCh ch m := by
  induction ch with
  | nil => simp [setCh, findCh, Ne.symm h]
  | cons kv rest ih =>
    obtain ⟨k, w⟩ := kv
    by_cases hk : k = n
    · subst hk
      simp [setCh, findCh, Ne.symm h]
    · simp [setCh, hk, findCh, ih]

theorem findCh_delCh_self (ch : List (String × Ent)) (n : String) :
    findCh (delCh ch n) n = none := by
  induction ch with
  | nil => simp [delCh, findCh]
  | cons kv rest ih =>
    obtain ⟨k, w⟩ := kv
    by_cases hk : k = n
    · simpa [delCh, hk] using ih
    · simpa [delCh, findCh, hk] using ih

theorem findCh_delCh_ne (ch : List (String × Ent)) {m n : String}
    (h : m ≠ n) : findCh (delCh ch n) m = findCh ch m := by
  induction ch with
  | nil => simp [delCh, findCh]
  | cons kv rest ih =>
    obtain ⟨k, w⟩ := kv
    simp only [delCh, ne_eq, decide_not] at ih ⊢
    by_cases hk : k = n
    · subst hk
      have hkm : k ≠ m := Ne.symm h
      simp [findCh, hkm, ih]
    · simp [findCh, hk, ih]

theorem setCh_findCh_self {ch : List (String × Ent)} {n : String} {v : Ent}
    (h : findCh ch n = some v) : setCh ch n v = ch := by
  induction ch with
  | nil => simp [findCh] at h
  | cons kv rest ih =>
    obtain ⟨k, w⟩ := kv
    by_cases hk : k = n
    · subst hk
      simp [findCh] at h
      simp [setCh, h]
    · simp [findCh, hk] at h
      simp [setCh, hk, ih h]

theorem getE_append (p q : Path) (e : Ent) :
    getE e (p ++ q) = (getE e p).bind (fun x => getE x q) := by
  induction p generalizing e with
  | nil => simp [getE]
  | cons n p ih =>
    cases e with
    | file d => simp [getE]
    | dir ch =>
      simp only [List.cons_append, getE]
      cases findCh ch n with
      | none => simp
      | some sub => simpa using ih sub

theorem getE_prefix_isSome {e : Ent} {p q : Path} {x : Ent}
    (h : getE e (p ++ q) = some x) : (getE e p).isSome := by
  rw [getE_append] at h
  cases hp : getE e p with
  | none => rw [hp] at h; simp at h
  | some _ => simp

theorem diverge_symm (p q : Path) : diverge p q = diverge q p := by
  induction p generalizing q with
  | nil => cases q <;> simp [diverge]
  | cons a p ih =>
    cases q with
    | nil => simp [diverge]
    | cons b q =>
      by_cases h : a = b
      · subst h; simp [diverge, ih]
      · simp [diverge, h, Ne.symm h]

theorem diverge_extend {p q : Path} (p' q' : Path)
    (h : diverge p q = true) : diverge (p ++ p') (q ++ q') = true := by
  induction p generalizing q with
  | nil => simp [diverge] at h
  | cons a p ih =>
    cases q with
    | nil => simp [diverge] at h
    | cons b q =>
      by_cases hab : a = b
      · subst hab
        simp only [diverge, if_pos rfl] at h ⊢
        exact ih h
      · simp [diverge, hab]

theorem diverge_cons_ne {a b : String} (p q : Path) (h : a ≠ b) :
    diverge (a :: p) (b :: q) = true := by
  simp [diverge, h]

theorem diverge_cons_same {a : String} {p q : Path}
    (h : diverge p q = true) : diverge (a :: p) (a :: q) = true := by
  simp [diverge, h]

/- ------------------------------------------------------------------
Lemmas about the write primitives.
------------------------------------------------------------------ -/

theorem putE_ok_dir {root root' : Ent} {p : Path} {v : Option Ent}
    (h : putE root p v = .ok root') : ∃ ch, root' = .dir ch := by
  induction root, p, v using putE.induct with
  | case1 root v => simp [putE] at h
  | case2 d hd tl v => simp [putE] at h
  | case3 ch n v =>
    simp only [putE, Except.ok.injEq] at h
    exact ⟨_, h.symm⟩
  | case4 ch n p ps v e hf sub' hrec ih =>
    simp only [putE, hf, hrec, Except.ok.injEq] at h
    exact ⟨_, h.symm⟩
  | case5 ch n p ps v e hf m hrec ih => simp [putE, hf, hrec] at h
  | case6 ch n p ps v hf => simp [putE, hf] at h

theorem putE_frame {root root' : Ent} {p q : Path} {v : Option Ent}
    (hd : diverge p q = true) (h : putE root p v = .ok root') :
    getE root' q = getE root q := by
  induction root, p, v using putE.induct generalizing root' q with
  | case1 root v => simp [diverge] at hd
  | case2 d hd' tl v => simp [putE] at h
  | case3 ch n v =>
    cases q with
    | nil => simp [diverge] at hd
    | cons b q' =>
      by_cases hnb : n = b
      · subst hnb; simp [diverge] at hd
      · simp only [putE, Except.ok.injEq] at h
        subst h
        cases v with
        | some e =>
          simp [getE, findCh_setCh_ne ch e (Ne.symm hnb)]
        | none =>
          simp [getE, findCh_delCh_ne ch (Ne.symm hnb)]
  | case4 ch n p ps v e hf sub' hrec ih =>
    simp only [putE, hf, hrec, Except.ok.injEq] at h
    subst h
    cases q with
    | nil => simp [diverge] at hd
    | cons b q' =>
      by_cases hnb : n = b
      · subst hnb
        simp only [diverge, if_pos rfl] at hd
        simp only [getE, findCh_setCh_self, hf]
        exact ih hd hrec
      · simp [getE, findCh_setCh_ne ch sub' (Ne.symm hnb)]
  | case5 ch n p ps v e hf m hrec ih => simp [putE, hf, hrec] at h
  | case6 ch n p ps v hf => simp [putE, hf] at h

theorem putE_getE_self {root root' : Ent} {p : Path} {v : Option Ent}
    (h : putE root p v = .ok root') : getE root' p = v := by
  induction root, p, v using putE.induct generalizing root' with
  | case1 root v => simp [putE] at h
  | case2 d hd' tl v => simp [putE] at h
  | case3 ch n v =>
    simp only [putE, Except.ok.injEq] at h
    subst h
    cases v with
    | some e => simp [getE, findCh_setCh_self]
    | none => simp [getE, findCh_delCh_self]
  | case4 ch n p ps v e hf sub' hrec ih =>
    simp only [putE, hf, hrec, Except.ok.injEq] at h
    subst h
    simp only [getE, findCh_setCh_self]
    exact ih hrec
  | case5 ch n p ps v e hf m hrec ih => simp [putE, hf, hrec] at h
  | case6 ch n p ps v hf => simp [putE, hf] at h

theorem putE_prefix {v : Option Ent} :
    ∀ (P r : Path) (root root' : Ent), r ≠ [] →
    putE root (P ++ r) v = .ok root' → ∃ ch, getE root' P = some (.dir ch) := by
  intro P
  induction P with
  | nil =>
    intro r root root' hr h
    obtain ⟨ch, rfl⟩ := putE_ok_dir (by simpa using h)
    exact ⟨ch, rfl⟩
  | cons a P ih =>
    intro r root root' hr h
    cases root with
    | file d => simp [putE] at h
    | dir ch =>
      have hne : P ++ r ≠ [] := by
        cases P <;> simp_all
      cases hpr : P ++ r with
      | nil => exact absurd hpr hne
      | cons hh tt =>
        rw [List.cons_append, hpr] at h
        cases hf : findCh ch a with
        | none => simp [putE, hf] at h
        | some sub =>
          cases hrec : putE sub (hh :: tt) v with
          | error m => simp [putE, hf, hrec] at h
          | ok sub' =>
            simp only [putE, hf, hrec, Except.ok.injEq] at h
            subst h
            simp only [getE, findCh_setCh_self]
            exact ih r sub sub' hr (hpr ▸ hrec)

theorem mkdirs_ok_dir {root root' : Ent} {p : Path}
    (h : mkdirs root p = .ok root') : ∃ ch, root' = .dir ch := by
  induction root, p using mkdirs.induct with
  | case1 root => simp [mkdirs] at h
  | case2 d hd tl => simp [mkdirs] at h
  | case3 ch n e hf => simp [mkdirs, hf] at h
  | case4 ch n hf =>
    simp only [mkdirs, hf, Except.ok.injEq] at h
    exact ⟨_, h.symm⟩
  | case5 ch n p ps e hf sub' hrec ih =>
    simp only [mkdirs, hf, hrec, Except.ok.injEq] at h
    exact ⟨_, h.symm⟩
  | case6 ch n p ps e hf m hrec ih => simp [mkdirs, hf, hrec] at h
  | case7 ch n p ps hf sub' hrec ih =>
    simp only [mkdirs, hf, hrec, Except.ok.injEq] at h
    exact ⟨_, h.symm⟩
  | case8 ch n p ps hf m hrec ih => simp [mkdirs, hf, hrec] at h

theorem mkdirs_frame {root root' : Ent} {p q : Path}
    (hd : diverge p q = true) (h : mkdirs root p = .ok root') :
    getE root' q = getE root q := by
  induction root, p using mkdirs.induct generalizing root' q with
  | case1 root => simp [diverge] at hd
  | case2 d hd' tl => simp [mkdirs] at h
  | case3 ch n e hf => simp [mkdirs, hf] at h
  | case4 ch n hf =>
    cases q with
    | nil => simp [diverge] at hd
    | cons b q' =>
      by_cases hnb : n = b
      · subst hnb; simp [diverge] at hd
      · simp only [mkdirs, hf, Except.ok.injEq] at h
        subst h
        simp [getE, findCh_setCh_ne ch (Ent.dir []) (Ne.symm hnb)]
  | case5 ch n p ps e hf sub' hrec ih =>
    simp only [mkdirs, hf, hrec, Except.ok.injEq] at h
    subst h
    cases q with
    | nil => simp [diverge] at hd
    | cons b q' =>
      by_cases hnb : n = b
      · subst hnb
        simp only [diverge, if_pos rfl] at hd
        simp only [getE, findCh_setCh_self, hf]
        exact ih hd hrec
      · simp [getE, findCh_setCh_ne ch sub' (Ne.symm hnb)]
  | case6 ch n p ps e hf m hrec ih => simp [mkdirs, hf, hrec] at h
  | case7 ch n p ps hf sub' hrec ih =>
    simp only [mkdirs, hf, hrec, Except.ok.injEq] at h
    subst h
    cases q with
    | nil => simp [diverge] at hd
    | cons b q' =>
      by_cases hnb : n = b
      · subst hnb
        simp only [diverge, if_pos rfl] at hd
        simp only [getE, findCh_setCh_self, hf]
        rw [ih hd hrec]
        cases q' with
        | nil => simp [diverge] at hd
        | cons c q'' => simp [getE, findCh]
      · simp [getE, findCh_setCh_ne ch sub' (Ne.symm hnb)]
  | case8 ch n p ps hf m hrec ih => simp [mkdirs, hf, hrec] at h

theorem mkdirs_getE_self {root root' : Ent} {p : Path}
    (h : mkdirs root p = .ok root') : getE root' p = some (.dir []) := by
  induction root, p using mkdirs.induct generalizing root' with
  | case1 root => simp [mkdirs] at h
  | case2 d hd tl => simp [mkdirs] at h
  | case3 ch n e hf => simp [mkdirs, hf] at h
  | case4 ch n hf =>
    simp only [mkdirs, hf, Except.ok.injEq] at h
    subst h
    simp [getE, findCh_setCh_self]
  | case5 ch n p ps e hf sub' hrec ih =>
    simp only [mkdirs, hf, hrec, Except.ok.injEq] at h
    subst h
    simp only [getE, findCh_setCh_self]
    exact ih hrec
  | case6 ch n p ps e hf m hrec ih => simp [mkdirs, hf, hrec] at h
  | case7 ch n p ps hf sub' hrec ih =>
    simp only [mkdirs, hf, hrec, Except.ok.injEq] at h
    subst h
    simp only [getE, findCh_setCh_self]
    exact ih hrec
  | case8 ch n p ps hf m hrec ih => simp [mkdirs, hf, hrec] at h

theorem mkdirs_prefix :
    ∀ (P r : Path) (root root' : Ent), r ≠ [] →
    mkdirs root (P ++ r) = .ok root' → ∃ ch, getE root' P = some (.dir ch) := by
  intro P
  induction P with
  | nil =>
    intro r root root' hr h
    obtain ⟨ch, rfl⟩ := mkdirs_ok_dir (by simpa using h)
    exact ⟨ch, rfl⟩
  | cons a P ih =>
    intro r root root' hr h
    cases root with
    | file d => simp [mkdirs] at h
    | dir ch =>
      have hne : P ++ r ≠ [] := by
        cases P <;> simp_all
      cases hpr : P ++ r with
      | nil => exact absurd hpr hne
      | cons hh tt =>
        rw [List.cons_append, hpr] at h
        cases hf : findCh ch a with
        | none =>
          cases hrec : mkdirs (.dir []) (hh :: tt) with
          | error m => simp [mkdirs, hf, hrec] at h
          | ok sub' =>
            simp only [mkdirs, hf, hrec, Except.ok.injEq] at h
            subst h
            simp only [getE, findCh_setCh_self]
            exact ih r _ sub' hr (hpr ▸ hrec)
        | some sub =>
          cases hrec : mkdirs sub (hh :: tt) with
          | error m => simp [mkdirs, hf, hrec] at h
          | ok sub' =>
            simp only [mkdirs, hf, hrec, Except.ok.injEq] at h
            subst h
            simp only [getE, findCh_setCh_self]
            exact ih r sub sub' hr (hpr ▸ hrec)

theorem mkdirsOk_ok_dir {root root' : Ent} {p : Path} (hp : p ≠ [])
    (h : mkdirsOk root p = .ok root') : ∃ ch, root' = .dir ch := by
  induction root, p using mkdirsOk.induct with
  | case1 root => exact absurd rfl hp
  | case2 d hd tl => simp [mkdirsOk] at h
  | case3 ch n dch hf =>
    simp only [mkdirsOk, hf, Except.ok.injEq] at h
    exact ⟨_, h.symm⟩
  | case4 ch n dd hf => simp [mkdirsOk, hf] at h
  | case5 ch n hf =>
    simp only [mkdirsOk, hf, Except.ok.injEq] at h
    exact ⟨_, h.symm⟩
  | case6 ch n p ps e hf sub' hrec ih =>
    simp only [mkdirsOk, hf, hrec, Except.ok.injEq] at h
    exact ⟨_, h.symm⟩
  | case7 ch n p ps e hf m hrec ih => simp [mkdirsOk, hf, hrec] at h
  | case8 ch n p ps hf sub' hrec ih =>
    simp only [mkdirsOk, hf, hrec, Except.ok.injEq] at h
    exact ⟨_, h.symm⟩
  | case9 ch n p ps hf m hrec ih => simp [mkdirsOk, hf, hrec] at h

theorem mkdirsOk_frame {root root' : Ent} {p q : Path}
    (hd : diverge p q = true) (h : mkdirsOk root p = .ok root') :
    getE root' q = getE root q := by
  induction root, p using mkdirsOk.induct generalizing root' q with
  | case1 root => simp [diverge] at hd
  | case2 d hd' tl => simp [mkdirsOk] at h
  | case3 ch n dch hf =>
    simp only [mkdirsOk, hf, Except.ok.injEq] at h
    subst h
    rfl
  | case4 ch n dd hf => simp [mkdirsOk, hf] at h
  | case5 ch n hf =>
    cases q with
    | nil => simp [diverge] at hd
    | cons b q' =>
      by_cases hnb : n = b
      · subst hnb; simp [diverge] at hd
      · simp only [mkdirsOk, hf, Except.ok.injEq] at h
        subst h
        simp [getE, findCh_setCh_ne ch (Ent.dir []) (Ne.symm hnb)]
  | case6 ch n p ps e hf sub' hrec ih =>
    simp only [mkdirsOk, hf, hrec, Except.ok.injEq] at h
    subst h
    cases q with
    | nil => simp [diverge] at hd
    | cons b q' =>
      by_cases hnb : n = b
      · subst hnb
        simp only [diverge, if_pos rfl] at hd
        simp only [getE, findCh_setCh_self, hf]
        exact ih hd hrec
      · simp [getE, findCh_setCh_ne ch sub' (Ne.symm hnb)]
  | case7 ch n p ps e hf m hrec ih => simp [mkdirsOk, hf, hrec] at h
  | case8 ch n p ps hf sub' hrec ih =>
    simp only [mkdirsOk, hf, hrec, Except.ok.injEq] at h
    subst h
    cases q with
    | nil => simp [diverge] at hd
    | cons b q' =>
      by_cases hnb : n = b
      · subst hnb
        simp only [diverge, if_pos rfl] at hd
        simp only [getE, findCh_setCh_self, hf]
        rw [ih hd hrec]
        cases q' with
        | nil => simp [diverge] at hd
        | cons c q'' => simp [getE, findCh]
      · simp [getE, findCh_setCh_ne ch sub' (Ne.symm hnb)]
  | case9 ch n p ps hf m hrec ih => simp [mkdirsOk, hf, hrec] at h

theorem mkdirsOk_getE_self {root root' : Ent} {p : Path} (hp : p ≠ [])
    (h : mkdirsOk root p = .ok root') : ∃ dch, getE root' p = some (.dir dch) := by
  induction root, p using mkdirsOk.induct generalizing root' with
  | case1 root => exact absurd rfl hp
  | case2 d hd tl => simp [mkdirsOk] at h
  | case3 ch n dch hf =>
    simp only [mkdirsOk, hf, Except.ok.injEq] at h
    subst h
    exact ⟨dch, by simp [getE, hf]⟩
  | case4 ch n dd hf => simp [mkdirsOk, hf] at h
  | case5 ch n hf =>
    simp only [mkdirsOk, hf, Except.ok.injEq] at h
    subst h
    exact ⟨[], by simp [getE, findCh_setCh_self]⟩
  | case6 ch n p ps e hf sub' hrec ih =>
    simp only [mkdirsOk, hf, hrec, Except.ok.injEq] at h
    subst h
    simp only [getE, findCh_setCh_self]
    exact ih (by simp) hrec
  | case7 ch n p ps e hf m hrec ih => simp [mkdirsOk, hf, hrec] at h
  | case8 ch n p ps hf sub' hrec ih =>
    simp only [mkdirsOk, hf, hrec, Except.ok.injEq] at h
    subst h
    simp only [getE, findCh_setCh_self]
    exact ih (by simp) hrec
  | case9 ch n p ps hf m hrec ih => simp [mkdirsOk, hf, hrec] at h

theorem mkdirsOk_prefix :
    ∀ (P r : Path) (root root' : Ent), r ≠ [] →
    mkdirsOk root (P ++ r) = .ok root' → ∃ ch, getE root' P = some (.dir ch) := by
  intro P
  induction P with
  | nil =>
    intro r root root' hr h
    obtain ⟨ch, rfl⟩ := mkdirsOk_ok_dir hr (by simpa using h)
    exact ⟨ch, rfl⟩
  | cons a P ih =>
    intro r root root' hr h
    cases root with
    | file d => simp [mkdirsOk] at h
    | dir ch =>
      have hne : P ++ r ≠ [] := by
        cases P <;> simp_all
      cases hpr : P ++ r with
      | nil => exact absurd hpr hne
      | cons hh tt =>
        rw [List.cons_append, hpr] at h
        cases hf : findCh ch a with
        | none =>
          cases hrec : mkdirsOk (.dir []) (hh :: tt) with
          | error m => simp [mkdirsOk, hf, hrec] at h
          | ok sub' =>
            simp only [mkdirsOk, hf, hrec, Except.ok.injEq] at h
            subst h
            simp only [getE, findCh_setCh_self]
            exact ih r _ sub' hr (hpr ▸ hrec)
        | some sub =>
          cases hrec : mkdirsOk sub (hh :: tt) with
          | error m => simp [mkdirsOk, hf, hrec] at h
          | ok sub' =>
            simp only [mkdirsOk, hf, hrec, Except.ok.injEq] at h
            subst h
            simp only [getE, findCh_setCh_self]
            exact ih r sub sub' hr (hpr ▸ hrec)

/- ------------------------------------------------------------------
Path trichotomy and monotonicity of deletion.
------------------------------------------------------------------ -/

theorem path_rel (p q : Path) :
    diverge p q = true ∨ (∃ r, q = p ++ r) ∨ (∃ r, r ≠ [] ∧ p = q ++ r) := by
  induction p generalizing q with
  | nil => exact Or.inr (Or.inl ⟨q, rfl⟩)
  | cons a p ih =>
    cases q with
    | nil => exact Or.inr (Or.inr ⟨a :: p, by simp, rfl⟩)
    | cons b q' =>
      by_cases hab : a = b
      · subst hab
        rcases ih q' with hdv | ⟨r, rfl⟩ | ⟨r, hr, rfl⟩
        · exact Or.inl (diverge_cons_same hdv)
        · exact Or.inr (Or.inl ⟨r, rfl⟩)
        · exact Or.inr (Or.inr ⟨r, hr, rfl⟩)
      · exact Or.inl (diverge_cons_ne _ _ hab)

theorem diverge_append_ne {m n : String} (P r s : Path) (h : m ≠ n) :
    diverge (P ++ m :: r) (P ++ n :: s) = true := by
  induction P with
  | nil => simp [diverge, h]
  | cons a P ih => simpa [diverge] using ih

theorem getE_file_cons (d : String) (x : String) (r : Path) :
    getE (.file d) (x :: r) = none := rfl

theorem putE_src_prefix {v : Option Ent} :
    ∀ (P s : Path) (root root' : Ent), s ≠ [] →
    putE root (P ++ s) v = .ok root' → ∃ ch, getE root P = some (.dir ch) := by
  intro P
  induction P with
  | nil =>
    intro s root root' hs h
    cases root with
    | file d =>
      cases s with
      | nil => exact absurd rfl hs
      | cons x xs => simp [putE] at h
    | dir ch => exact ⟨ch, rfl⟩
  | cons a P ih =>
    intro s root root' hs h
    cases root with
    | file d => simp [putE] at h
    | dir ch =>
      have hne : P ++ s ≠ [] := by cases P <;> simp_all
      cases hpr : P ++ s with
      | nil => exact absurd hpr hne
      | cons hh tt =>
        rw [List.cons_append, hpr] at h
        cases hf : findCh ch a with
        | none => simp [putE, hf] at h
        | some sub =>
          cases hrec : putE sub (hh :: tt) v with
          | error m => simp [putE, hf, hrec] at h
          | ok sub' =>
            obtain ⟨ch', hch'⟩ := ih s sub sub' hs (hpr ▸ hrec)
            exact ⟨ch', by simp [getE, hf, hch']⟩

theorem putE_none_mono {root root' : Ent} {p q : Path}
    (h : putE root p none = .ok root') (hq : getE root q = none) :
    getE root' q = none := by
  rcases path_rel p q with hdv | ⟨r, rfl⟩ | ⟨r, hr, rfl⟩
  · rw [putE_frame hdv h, hq]
  · cases r with
    | nil => simpa using putE_getE_self h
    | cons x xs =>
      have hp : getE root' p = none := putE_getE_self h
      rw [getE_append, hp]
      rfl
  · obtain ⟨ch, hch⟩ := putE_src_prefix q r root root' hr h
    rw [hch] at hq
    cases hq

/- ------------------------------------------------------------------
Lemmas about the composite filesystem operations.
------------------------------------------------------------------ -/

theorem removeE_frame {root root' : Ent} {p q : Path}
    (hd : diverge p q = true) (h : removeE root p = .ok root') :
    getE root' q = getE root q := by
  unfold removeE at h
  cases hg : getE root p with
  | none => rw [hg] at h; cases h
  | some e =>
    cases e with
    | file d => rw [hg] at h; exact putE_frame hd h
    | dir ch => rw [hg] at h; cases h

theorem removeE_self {root root' : Ent} {p : Path}
    (h : removeE root p = .ok root') : getE root' p = none := by
  unfold removeE at h
  cases hg : getE root p with
  | none => rw [hg] at h; cases h
  | some e =>
    cases e with
    | file d => rw [hg] at h; exact putE_getE_self h
    | dir ch => rw [hg] at h; cases h

theorem removeE_none_mono {root root' : Ent} {p q : Path}
    (h : removeE root p = .ok root') (hq : getE root q = none) :
    getE root' q = none := by
  unfold removeE at h
  cases hg : getE root p with
  | none => rw [hg] at h; cases h
  | some e =>
    cases e with
    | file d => rw [hg] at h; exact putE_none_mono h hq
    | dir ch => rw [hg] at h; cases h

theorem rmtreeE_frame {root root' : Ent} {p q : Path}
    (hd : diverge p q = true) (h : rmtreeE root p = .ok root') :
    getE root' q = getE root q := by
  unfold rmtreeE at h
  cases hg : getE root p with
  | none => rw [hg] at h; cases h
  | some e =>
    cases e with
    | file d => rw [hg] at h; cases h
    | dir ch => rw [hg] at h; exact putE_frame hd h

theorem rmtreeE_self {root root' : Ent} {p : Path}
    (h : rmtreeE root p = .ok root') : getE root' p = none := by
  unfold rmtreeE at h
  cases hg : getE root p with
  | none => rw [hg] at h; cases h
  | some e =>
    cases e with
    | file d => rw [hg] at h; cases h
    | dir ch => rw [hg] at h; exact putE_getE_self h

theorem rmtreeE_none_mono {root root' : Ent} {p q : Path}
    (h : rmtreeE root p = .ok root') (hq : getE root q = none) :
    getE root' q = none := by
  unfold rmtreeE at h
  cases hg : getE root p with
  | none => rw [hg] at h; cases h
  | some e =>
    cases e with
    | file d => rw [hg] at h; cases h
    | dir ch => rw [hg] at h; exact putE_none_mono h hq

theorem create_folder_of_exists {root : Ent} {p : Path}
    (h : (getE root p).isSome) : create_folder root p = .ok root := by
  simp [create_folder, check_folder_exists, h]

theorem create_folder_isSome {root root' : Ent} {p : Path}
    (h : create_folder root p = .ok root') : (getE root' p).isSome := by
  unfold create_folder check_folder_exists at h
  split at h
  · cases h
    assumption
  · rw [mkdirs_getE_self h]
    rfl

theorem create_folder_frame {root root' : Ent} {p q : Path}
    (hd : diverge p q = true) (h : create_folder root p = .ok root') :
    getE root' q = getE root q := by
  unfold create_folder at h
  split at h
  · cases h; rfl
  · exact mkdirs_frame hd h

theorem writeFileAt_frame {root root' : Ent} {p q : Path} {data : String}
    (hd : diverge p q = true) (h : writeFileAt root p data = .ok root') :
    getE root' q = getE root q := by
  unfold writeFileAt at h
  split at h
  · cases h
  · exact putE_frame hd h

theorem writeFileAt_self {root root' : Ent} {p : Path} {data : String}
    (h : writeFileAt root p data = .ok root') :
    getE root' p = some (.file data) := by
  unfold writeFileAt at h
  split at h
  · cases h
  · exact putE_getE_self h

theorem writeFileAt_prefix {root root' : Ent} {P s : Path} {data : String}
    (hs : s ≠ []) (h : writeFileAt root (P ++ s) data = .ok root') :
    ∃ ch, getE root' P = some (.dir ch) := by
  unfold writeFileAt at h
  split at h
  · cases h
  · exact putE_prefix P s root root' hs h

theorem copy2E_frame {root root' : Ent} {dst q : Path} {data base : String}
    (hd : diverge dst q = true) (h : copy2E root data dst base = .ok root') :
    getE root' q = getE root q := by
  unfold copy2E at h
  split at h
  · exact writeFileAt_frame (by simpa using diverge_extend [base] [] hd) h
  · exact writeFileAt_frame hd h

theorem copy2E_prefix {root root' : Ent} {P s dst : Path} {data base : String}
    (hdst : dst = P ++ s) (hs : s ≠ [])
    (h : copy2E root data dst base = .ok root') :
    ∃ ch, getE root' P = some (.dir ch) := by
  subst hdst
  unfold copy2E at h
  split at h
  · rw [List.append_assoc] at h
    exact writeFileAt_prefix (by simp) h
  · exact writeFileAt_prefix hs h

theorem moveE_frame {root root' : Ent} {src dst q : Path} {base : String}
    (hs : diverge src q = true) (hd : diverge dst q = true)
    (h : moveE root src dst base = .ok root') :
    getE root' q = getE root q := by
  unfold moveE at h
  cases hg : getE root src with
  | none => simp [hg] at h
  | some e =>
    cases hgd : getE root dst with
    | none =>
      simp only [hg, hgd] at h
      cases hrm : putE root src none with
      | error m => simp [hrm] at h
      | ok r =>
        simp only [hrm] at h
        rw [putE_frame hd h, putE_frame hs hrm]
    | some ed =>
      cases ed with
      | dir dch =>
        simp only [hg, hgd] at h
        by_cases hex : (getE root (dst ++ [base])).isSome
        · simp [hex] at h
        · simp only [hex, Bool.false_eq_true, if_false] at h
          cases hrm : putE root src none with
          | error m => simp [hrm] at h
          | ok r =>
            simp only [hrm] at h
            rw [putE_frame (by simpa using diverge_extend [base] [] hd) h,
              putE_frame hs hrm]
      | file fd =>
        simp only [hg, hgd] at h
        cases e with
        | dir ech => simp at h
        | file efd =>
          cases hrm : putE root src none with
          | error m => simp [hrm] at h
          | ok r =>
            simp only [hrm] at h
            rw [putE_frame hd h, putE_frame hs hrm]

/- ------------------------------------------------------------------
Frame and preservation lemmas for the copytree loop.
------------------------------------------------------------------ -/

theorem copy_frame_all :
    (∀ (root : Ent) (dst : Path) (name : String) (e : Ent),
      ∀ (root2 : Ent) (q : Path), copyInto root dst name e = .ok root2 →
        diverge (dst ++ [name]) q = true → getE root2 q = getE root q) ∧
    (∀ (root : Ent) (dst : Path) (items : List (String × Ent)),
      ∀ (root2 : Ent) (q : Path), copyList root dst items = .ok root2 →
        diverge dst q = true → getE root2 q = getE root q) := by
  have h1 : ∀ (root : Ent) (dst : Path) (name data : String),
      ∀ (root2 : Ent) (q : Path), copyInto root dst name (.file data) = .ok root2 →
        diverge (dst ++ [name]) q = true → getE root2 q = getE root q := by
    intro root dst name data root2 q h hd
    unfold copyInto at h
    exact copy2E_frame hd h
  have h2 : ∀ (root : Ent) (dst : Path) (name : String) (a : List (String × Ent))
      (sub' : Ent), mkdirsOk root (dst ++ [name]) = Except.ok sub' →
      (∀ (root2 : Ent) (q : Path), copyList sub' (dst ++ [name]) a = .ok root2 →
        diverge (dst ++ [name]) q = true → getE root2 q = getE sub' q) →
      ∀ (root2 : Ent) (q : Path), copyInto root dst name (.dir a) = .ok root2 →
        diverge (dst ++ [name]) q = true → getE root2 q = getE root q := by
    intro root dst name a sub' hmk ih root2 q h hd
    unfold copyInto at h
    rw [hmk] at h
    rw [ih root2 q h hd, mkdirsOk_frame hd hmk]
  have h3 : ∀ (root : Ent) (dst : Path) (name : String) (a : List (String × Ent))
      (m : String), mkdirsOk root (dst ++ [name]) = Except.error m →
      ∀ (root2 : Ent) (q : Path), copyInto root dst name (.dir a) = .ok root2 →
        diverge (dst ++ [name]) q = true → getE root2 q = getE root q := by
    intro root dst name a m hmk root2 q h hd
    unfold copyInto at h
    rw [hmk] at h
    cases h
  have h4 : ∀ (root : Ent) (dst : Path),
      ∀ (root2 : Ent) (q : Path), copyList root dst [] = .ok root2 →
        diverge dst q = true → getE root2 q = getE root q := by
    intro root dst root2 q h _
    unfold copyList at h
    cases h
    rfl
  have h5 : ∀ (root : Ent) (dst : Path) (k : String) (e : Ent)
      (rest : List (String × Ent)) (sub' : Ent),
      copyInto root dst k e = Except.ok sub' →
      (∀ (root2 : Ent) (q : Path), copyInto root dst k e = .ok root2 →
        diverge (dst ++ [k]) q = true → getE root2 q = getE root q) →
      (∀ (root2 : Ent) (q : Path), copyList sub' dst rest = .ok root2 →
        diverge dst q = true → getE root2 q = getE sub' q) →
      ∀ (root2 : Ent) (q : Path), copyList root dst ((k, e) :: rest) = .ok root2 →
        diverge dst q = true → getE root2 q = getE root q := by
    intro root dst k e rest sub' hci ih1 ih2 root2 q h hd
    unfold copyList at h
    rw [hci] at h
    rw [ih2 root2 q h hd, ih1 sub' q hci (by simpa using diverge_extend [k] [] hd)]
  have h6 : ∀ (root : Ent) (dst : Path) (k : String) (e : Ent)
      (rest : List (String × Ent)) (m : String),
      copyInto root dst k e = Except.error m →
      (∀ (root2 : Ent) (q : Path), copyInto root dst k e = .ok root2 →
        diverge (dst ++ [k]) q = true → getE root2 q = getE root q) →
      ∀ (root2 : Ent) (q : Path), copyList root dst ((k, e) :: rest) = .ok root2 →
        diverge dst q = true → getE root2 q = getE root q := by
    intro root dst k e rest m hci _ root2 q h _
    unfold copyList at h
    rw [hci] at h
    cases h
  exact ⟨fun root dst name e =>
      copyInto.induct _ _ h1 h2 h3 h4 h5 h6 root dst name e,
    fun root dst items =>
      copyList.induct _ _ h1 h2 h3 h4 h5 h6 root dst items⟩

theorem copyInto_frame {root root2 : Ent} {dst q : Path} {name : String} {e : Ent}
    (h : copyInto root dst name e = .ok root2)
    (hd : diverge (dst ++ [name]) q = true) : getE root2 q = getE root q :=
  copy_frame_all.1 root dst name e root2 q h hd

theorem copyList_frame {root root2 : Ent} {dst q : Path}
    {items : List (String × Ent)}
    (h : copyList root dst items = .ok root2)
    (hd : diverge dst q = true) : getE root2 q = getE root q :=
  copy_frame_all.2 root dst items root2 q h hd

theorem copy_keeps_all :
    (∀ (root : Ent) (dst : Path) (name : String) (e : Ent),
      ∀ (root2 : Ent) (P s : Path), copyInto root dst name e = .ok root2 →
        dst = P ++ s → ∃ ch, getE root2 P = some (.dir ch)) ∧
    (∀ (root : Ent) (dst : Path) (items : List (String × Ent)),
      ∀ (root2 : Ent) (P s : Path), copyList root dst items = .ok root2 →
        dst = P ++ s → (∃ ch, getE root P = some (.dir ch)) →
        ∃ ch, getE root2 P = some (.dir ch)) := by
  have h1 : ∀ (root : Ent) (dst : Path) (name data : String),
      ∀ (root2 : Ent) (P s : Path), copyInto root dst name (.file data) = .ok root2 →
        dst = P ++ s → ∃ ch, getE root2 P = some (.dir ch) := by
    intro root dst name data root2 P s h hdst
    unfold copyInto at h
    exact @ copy2E_prefix root root2 P (s ++ [name]) (dst ++ [name])
      data name (by rw [hdst, List.append_assoc]) (by simp) h
  have h2 : ∀ (root : Ent) (dst : Path) (name : String) (a : List (String × Ent))
      (sub' : Ent), mkdirsOk root (dst ++ [name]) = Except.ok sub' →
      (∀ (root2 : Ent) (P s : Path), copyList sub' (dst ++ [name]) a = .ok root2 →
        dst ++ [name] = P ++ s → (∃ ch, getE sub' P = some (.dir ch)) →
        ∃ ch, getE root2 P = some (.dir ch)) →
      ∀ (root2 : Ent) (P s : Path), copyInto root dst name (.dir a) = .ok root2 →
        dst = P ++ s → ∃ ch, getE root2 P = some (.dir ch) := by
    intro root dst name a sub' hmk ih root2 P s h hdst
    unfold copyInto at h
    rw [hmk] at h
    have hpre : dst ++ [name] = P ++ (s ++ [name]) := by
      rw [hdst, List.append_assoc]
    have hdir := mkdirsOk_prefix P (s ++ [name]) root sub' (by simp)
      (by rw [← hpre]; exact hmk)
    exact ih root2 P (s ++ [name]) h hpre hdir
  have h3 : ∀ (root : Ent) (dst : Path) (name : String) (a : List (String × Ent))
      (m : String), mkdirsOk root (dst ++ [name]) = Except.error m →
      ∀ (root2 : Ent) (P s : Path), copyInto root dst name (.dir a) = .ok root2 →
        dst = P ++ s → ∃ ch, getE root2 P = some (.dir ch) := by
    intro root dst name a m hmk root2 P s h _
    unfold copyInto at h
    rw [hmk] at h
    cases h
  have h4 : ∀ (root : Ent) (dst : Path),
      ∀ (root2 : Ent) (P s : Path), copyList root dst [] = .ok root2 →
        dst = P ++ s → (∃ ch, getE root P = some (.dir ch)) →
        ∃ ch, getE root2 P = some (.dir ch) := by
    intro root dst root2 P s h _ hpre
    unfold copyList at h
    cases h
    exact hpre
  have h5 : ∀ (root : Ent) (dst : Path) (k : String) (e : Ent)
      (rest : List (String × Ent)) (sub' : Ent),
      copyInto root dst k e = Except.ok sub' →
      (∀ (root2 : Ent) (P s : Path), copyInto root dst k e = .ok root2 →
        dst = P ++ s → ∃ ch, getE root2 P = some (.dir ch)) →
      (∀ (root2 : Ent) (P s : Path), copyList sub' dst rest = .ok root2 →
        dst = P ++ s → (∃ ch, getE sub' P = some (.dir ch)) →
        ∃ ch, getE root2 P = some (.dir ch)) →
      ∀ (root2 : Ent) (P s : Path), copyList root dst ((k, e) :: rest) = .ok root2 →
        dst = P ++ s → (∃ ch, getE root P = some (.dir ch)) →
        ∃ ch, getE root2 P = some (.dir ch) := by
    intro root dst k e rest sub' hci ih1 ih2 root2 P s h hdst _
    unfold copyList at h
    rw [hci] at h
    exact ih2 root2 P s h hdst (ih1 sub' P s hci hdst)
  have h6 : ∀ (root : Ent) (dst : Path) (k : String) (e : Ent)
      (rest : List (String × Ent)) (m : String),
      copyInto root dst k e = Except.error m →
      (∀ (root2 : Ent) (P s : Path), copyInto root dst k e = .ok root2 →
        dst = P ++ s → ∃ ch, getE root2 P = some (.dir ch)) →
      ∀ (root2 : Ent) (P s : Path), copyList root dst ((k, e) :: rest) = .ok root2 →
        dst = P ++ s → (∃ ch, getE root P = some (.dir ch)) →
        ∃ ch, getE root2 P = some (.dir ch) := by
    intro root dst k e rest m hci _ root2 P s h _ _
    unfold copyList at h
    rw [hci] at h
    cases h
  exact ⟨fun root dst name e =>
      copyInto.induct _ _ h1 h2 h3 h4 h5 h6 root dst name e,
    fun root dst items =>
      copyList.induct _ _ h1 h2 h3 h4 h5 h6 root dst items⟩

theorem copyInto_keeps {root root2 : Ent} {dst P s : Path} {name : String} {e : Ent}
    (h : copyInto root dst name e = .ok root2) (hdst : dst = P ++ s) :
    ∃ ch, getE root2 P = some (.dir ch) :=
  copy_keeps_all.1 root dst name e root2 P s h hdst

theorem copyList_keeps {root root2 : Ent} {dst P s : Path}
    {items : List (String × Ent)}
    (h : copyList root dst items = .ok root2) (hdst : dst = P ++ s)
    (hpre : ∃ ch, getE root P = some (.dir ch)) :
    ∃ ch, getE root2 P = some (.dir ch) :=
  copy_keeps_all.2 root dst items root2 P s h hdst hpre

theorem dir_of_below {root : Ent} {P t : Path} {e : Ent}
    (h : getE root (P ++ t) = some e) (ht : t ≠ []) :
    ∃ ch, getE root P = some (.dir ch) := by
  rw [getE_append] at h
  cases hp : getE root P with
  | none => rw [hp] at h; cases h
  | some par =>
    rw [hp] at h
    simp only [Option.some_bind] at h
    cases par with
    | file d =>
      cases t with
      | nil => exact absurd rfl ht
      | cons x xs => rw [getE_file_cons] at h; cases h
    | dir ch => exact ⟨ch, rfl⟩

theorem mergeItems_frame {srcP tgtP q : Path} :
    ∀ {items : List String} {root root2 : Ent},
    mergeItems root srcP tgtP items = .ok root2 → diverge tgtP q = true →
    getE root2 q = getE root q := by
  intro items
  induction items with
  | nil =>
    intro root root2 h _
    unfold mergeItems at h
    cases h
    rfl
  | cons item rest ih =>
    intro root root2 h hd
    unfold mergeItems at h
    cases hg : getE root (srcP ++ [item]) with
    | none => simp [hg] at h
    | some e =>
      cases e with
      | dir ch =>
        simp only [hg] at h
        cases hb : copyInto root tgtP item (.dir ch) with
        | error m => simp [hb] at h
        | ok r =>
          simp only [hb] at h
          rw [ih h hd, copyInto_frame hb (by simpa using diverge_extend [item] [] hd)]
      | file d =>
        simp only [hg] at h
        cases hb : copy2E root d (tgtP ++ [item]) item with
        | error m => simp [hb] at h
        | ok r =>
          simp only [hb] at h
          rw [ih h hd, copy2E_frame (by simpa using diverge_extend [item] [] hd) hb]

theorem mergeItems_keepsDir {srcP tgtP P s : Path} (hs : tgtP = P ++ s) :
    ∀ {items : List String} {root root2 : Ent},
    mergeItems root srcP tgtP items = .ok root2 →
    (∃ ch, getE root P = some (.dir ch)) →
    ∃ ch, getE root2 P = some (.dir ch) := by
  intro items
  induction items with
  | nil =>
    intro root root2 h hpre
    unfold mergeItems at h
    cases h
    exact hpre
  | cons item rest ih =>
    intro root root2 h hpre
    unfold mergeItems at h
    cases hg : getE root (srcP ++ [item]) with
    | none => simp [hg] at h
    | some e =>
      cases e with
      | dir ch =>
        simp only [hg] at h
        cases hb : copyInto root tgtP item (.dir ch) with
        | error m => simp [hb] at h
        | ok r =>
          simp only [hb] at h
          exact ih h (copyInto_keeps hb hs)
      | file d =>
        simp only [hg] at h
        cases hb : copy2E root d (tgtP ++ [item]) item with
        | error m => simp [hb] at h
        | ok r =>
          simp only [hb] at h
          refine ih h ?_
          exact @ copy2E_prefix root r P (s ++ [item]) (tgtP ++ [item]) d item
            (by rw [hs, List.append_assoc]) (by simp) hb

theorem rmtreeE_prefix {root root2 : Ent} {P u : Path}
    (hu : u ≠ []) (h : rmtreeE root (P ++ u) = .ok root2) :
    ∃ ch, getE root2 P = some (.dir ch) := by
  unfold rmtreeE at h
  cases hg : getE root (P ++ u) with
  | none => rw [hg] at h; cases h
  | some e =>
    cases e with
    | file d => rw [hg] at h; cases h
    | dir ch => rw [hg] at h; exact putE_prefix P u root root2 hu h

theorem removeE_prefix {root root2 : Ent} {P u : Path}
    (hu : u ≠ []) (h : removeE root (P ++ u) = .ok root2) :
    ∃ ch, getE root2 P = some (.dir ch) := by
  unfold removeE at h
  cases hg : getE root (P ++ u) with
  | none => rw [hg] at h; cases h
  | some e =>
    cases e with
    | dir ch => rw [hg] at h; cases h
    | file d => rw [hg] at h; exact putE_prefix P u root root2 hu h

/-- Decomposition of `shutil.move` into an existing directory: the source
is deleted and re-attached at `dst/base`. -/
theorem moveE_dir_spec {root root2 : Ent} {src dst : Path} {base : String}
    {e : Ent} {dch : List (String × Ent)}
    (hsrc : getE root src = some e) (hdst : getE root dst = some (.dir dch))
    (h : moveE root src dst base = .ok root2) :
    getE root (dst ++ [base]) = none ∧
    ∃ r, putE root src none = .ok r ∧ putE r (dst ++ [base]) (some e) = .ok root2 := by
  unfold moveE at h
  rw [hsrc, hdst] at h
  cases hnb : getE root (dst ++ [base]) with
  | some x => simp [hnb] at h
  | none =>
    refine ⟨rfl, ?_⟩
    simp only [hnb] at h
    cases hrm : putE root src none with
    | error m => simp [hrm, Option.isSome] at h
    | ok r =>
      simp only [hrm, Option.isSome] at h
      exact ⟨r, rfl, h⟩

/-- Decomposition of `shutil.move` onto an existing file: only a file can
be moved, and it overwrites the destination path itself. -/
theorem moveE_file_spec {root root2 : Ent} {src dst : Path} {base fd : String}
    {e : Ent}
    (hsrc : getE root src = some e) (hdst : getE root dst = some (.file fd))
    (h : moveE root src dst base = .ok root2) :
    ∃ efd, e = .file efd ∧
      ∃ r, putE root src none = .ok r ∧ putE r dst (some e) = .ok root2 := by
  unfold moveE at h
  rw [hsrc, hdst] at h
  cases e with
  | dir ech => simp at h
  | file efd =>
    refine ⟨efd, rfl, ?_⟩
    cases hrm : putE root src none with
    | error m => simp [hrm] at h
    | ok r =>
      simp only [hrm] at h
      exact ⟨r, rfl, h⟩

/-- Decomposition of `shutil.move` to a nonexistent destination path. -/
theorem moveE_none_spec {root root2 : Ent} {src dst : Path} {base : String}
    {e : Ent}
    (hsrc : getE root src = some e) (hdst : getE root dst = none)
    (h : moveE root src dst base = .ok root2) :
    ∃ r, putE root src none = .ok r ∧ putE r dst (some e) = .ok root2 := by
  unfold moveE at h
  rw [hsrc, hdst] at h
  cases hrm : putE root src none with
  | error m => simp [hrm] at h
  | ok r =>
    simp only [hrm] at h
    exact ⟨r, rfl, h⟩

/- ------------------------------------------------------------------
Lemmas about the per-name loop of `move_folders`.
------------------------------------------------------------------ -/

theorem move_foldersLoop_noop {src tgt : Path} :
    ∀ {names : List String} {root : Ent},
    (∀ n ∈ names, getE root (src ++ [n]) = none) →
    move_foldersLoop root src tgt names = .ok root := by
  intro names
  induction names with
  | nil => intro root _; rfl
  | cons name rest ih =>
    intro root habs
    unfold move_foldersLoop
    have hex : check_folder_exists root (src ++ [name]) = false := by
      simp [check_folder_exists, habs name (by simp)]
    rw [hex]
    simpa using ih (fun n hn => habs n (by simp [hn]))

theorem move_foldersLoop_frameA {src tgt q : Path}
    (htq : diverge tgt q = true) :
    ∀ {names : List String} {root root2 : Ent},
    move_foldersLoop root src tgt names = .ok root2 →
    (∀ n ∈ names, diverge (src ++ [n]) q = true) →
    getE root2 q = getE root q := by
  intro names
  induction names with
  | nil =>
    intro root root2 h _
    unfold move_foldersLoop at h
    cases h
    rfl
  | cons name rest ih =>
    intro root root2 h hs
    have hsn : diverge (src ++ [name]) q = true := hs name (by simp)
    have hsr : ∀ n ∈ rest, diverge (src ++ [n]) q = true :=
      fun n hn => hs n (by simp [hn])
    have htnq : diverge (tgt ++ [name]) q = true := by
      simpa using diverge_extend [name] [] htq
    unfold move_foldersLoop at h
    cases hex : check_folder_exists root (src ++ [name]) with
    | false =>
      rw [hex] at h
      simp only [Bool.false_eq_true, if_false] at h
      exact ih h hsr
    | true =>
      rw [hex] at h
      simp only [if_true] at h
      cases hext : check_folder_exists root (tgt ++ [name]) with
      | true =>
        rw [hext] at h
        simp only [if_true] at h
        cases hlf : list_files root (src ++ [name]) with
        | error m => simp [hlf] at h
        | ok items =>
          simp only [hlf] at h
          cases hmi : mergeItems root (src ++ [name]) (tgt ++ [name]) items with
          | error m => simp [hmi] at h
          | ok r1 =>
            simp only [hmi] at h
            cases hrm : rmtreeE r1 (src ++ [name]) with
            | error m => simp [hrm] at h
            | ok r2 =>
              simp only [hrm] at h
              rw [ih h hsr, rmtreeE_frame hsn hrm, mergeItems_frame hmi htnq]
      | false =>
        rw [hext] at h
        simp only [Bool.false_eq_true, if_false] at h
        cases hmv : moveE root (src ++ [name]) tgt name with
        | error m => simp [hmv] at h
        | ok r1 =>
          simp only [hmv] at h
          rw [ih h hsr, moveE_frame hsn htq hmv]

theorem below_file_none {root : Ent} {P u : Path} {fd : String}
    (h : getE root P = some (.file fd)) (hu : u ≠ []) :
    getE root (P ++ u) = none := by
  rw [getE_append, h]
  cases u with
  | nil => exact absurd rfl hu
  | cons x xs => simp [getE_file_cons]

/-- Invariant maintenance through the `move_folders` loop: the target
folder stays present and an initially-absent path `q` (divergent from
every touched path, or sitting below the target when the target is
present) stays absent. -/
theorem move_foldersLoop_inv {src tgt q : Path} :
    ∀ {names : List String} {root root2 : Ent},
    move_foldersLoop root src tgt names = .ok root2 →
    (∀ n ∈ names, diverge (src ++ [n]) tgt = true ∨
      ∃ u, u ≠ [] ∧ src ++ [n] = tgt ++ u) →
    (∀ n ∈ names, diverge (tgt ++ [n]) q = true) →
    (∀ n ∈ names, diverge (src ++ [n]) q = true ∨ src ++ [n] = q) →
    (diverge tgt q = true ∨ ∃ u, u ≠ [] ∧ q = tgt ++ u) →
    (getE root tgt).isSome → getE root q = none →
    (getE root2 tgt).isSome ∧ getE root2 q = none := by
  intro names
  induction names with
  | nil =>
    intro root root2 h _ _ _ _ hts hqn
    unfold move_foldersLoop at h
    cases h
    exact ⟨hts, hqn⟩
  | cons name rest ih =>
    intro root root2 h hrel htq hsq hqt hts hqn
    have hreln := hrel name (by simp)
    have htqn := htq name (by simp)
    have hrelr : ∀ n ∈ rest, diverge (src ++ [n]) tgt = true ∨
        ∃ u, u ≠ [] ∧ src ++ [n] = tgt ++ u := fun n hn => hrel n (by simp [hn])
    have htqr : ∀ n ∈ rest, diverge (tgt ++ [n]) q = true :=
      fun n hn => htq n (by simp [hn])
    have hsqr : ∀ n ∈ rest, diverge (src ++ [n]) q = true ∨ src ++ [n] = q :=
      fun n hn => hsq n (by simp [hn])
    unfold move_foldersLoop at h
    cases hex : check_folder_exists root (src ++ [name]) with
    | false =>
      rw [hex] at h
      simp only [Bool.false_eq_true, if_false] at h
      exact ih h hrelr htqr hsqr hqt hts hqn
    | true =>
      have hsrcS : (getE root (src ++ [name])).isSome := by
        simpa [check_folder_exists] using hex
      obtain ⟨e, hsrc⟩ := Option.isSome_iff_exists.mp hsrcS
      have hsqn : diverge (src ++ [name]) q = true := by
        rcases hsq name (by simp) with hdv | heq
        · exact hdv
        · rw [heq, hqn] at hsrc; cases hsrc
      rw [hex] at h
      simp only [if_true] at h
      cases hext : check_folder_exists root (tgt ++ [name]) with
      | true =>
        rw [hext] at h
        simp only [if_true] at h
        have hextS : (getE root (tgt ++ [name])).isSome := by
          simpa [check_folder_exists] using hext
        obtain ⟨e', hext'⟩ := Option.isSome_iff_exists.mp hextS
        obtain ⟨dch, hdch⟩ := dir_of_below hext' (by simp)
        cases hlf : list_files root (src ++ [name]) with
        | error m => simp [hlf] at h
        | ok items =>
          simp only [hlf] at h
          cases hmi : mergeItems root (src ++ [name]) (tgt ++ [name]) items with
          | error m => simp [hmi] at h
          | ok r1 =>
            simp only [hmi] at h
            have hts1 : (getE r1 tgt).isSome := by
              obtain ⟨ch1, hch1⟩ := mergeItems_keepsDir rfl hmi ⟨dch, hdch⟩
              simp [hch1]
            have hqn1 : getE r1 q = none := by
              rw [mergeItems_frame hmi htqn]
              exact hqn
            cases hrm : rmtreeE r1 (src ++ [name]) with
            | error m => simp [hrm] at h
            | ok r2 =>
              simp only [hrm] at h
              have hqn2 : getE r2 q = none := rmtreeE_none_mono hrm hqn1
              have hts2 : (getE r2 tgt).isSome := by
                rcases hreln with hdv | ⟨u, hu, hequ⟩
                · rw [rmtreeE_frame hdv hrm]; exact hts1
                · obtain ⟨ch2, hch2⟩ := rmtreeE_prefix hu (hequ ▸ hrm)
                  simp [hch2]
              exact ih h hrelr htqr hsqr hqt hts2 hqn2
      | false =>
        rw [hext] at h
        simp only [Bool.false_eq_true, if_false] at h
        cases hmv : moveE root (src ++ [name]) tgt name with
        | error m => simp [hmv] at h
        | ok r1 =>
          simp only [hmv] at h
          obtain ⟨et, hdst⟩ := Option.isSome_iff_exists.mp hts
          cases et with
          | dir dch =>
            obtain ⟨hnb, r, hrm, hput⟩ := moveE_dir_spec hsrc hdst hmv
            have hts1 : (getE r1 tgt).isSome := by
              obtain ⟨ch1, hch1⟩ := putE_prefix tgt [name] r r1 (by simp) hput
              simp [hch1]
            have hqn1 : getE r1 q = none := by
              rw [putE_frame htqn hput]
              exact putE_none_mono hrm hqn
            exact ih h hrelr htqr hsqr hqt hts1 hqn1
          | file fd =>
            obtain ⟨efd, rfl, r, hrm, hput⟩ := moveE_file_spec hsrc hdst hmv
            have hts1 : (getE r1 tgt).isSome := by
              rw [putE_getE_self hput]
              rfl
            have hqn1 : getE r1 q = none := by
              rcases hqt with hdv | ⟨u, hu, hequ⟩
              · rw [putE_frame hdv hput]
                exact putE_none_mono hrm hqn
              · subst hequ
                exact below_file_none (putE_getE_self hput) hu
            exact ih h hrelr htqr hsqr hqt hts1 hqn1

/-- Post-condition of the `move_folders` loop: the target folder is still
present and every processed source subfolder is gone. -/
theorem move_foldersLoop_main {src tgt : Path} :
    ∀ {names : List String} {root root2 : Ent},
    move_foldersLoop root src tgt names = .ok root2 →
    (∀ n ∈ names, ∀ m ∈ names, diverge (src ++ [n]) (tgt ++ [m]) = true) →
    (∀ n ∈ names, diverge (src ++ [n]) tgt = true ∨
      ∃ u, u ≠ [] ∧ src ++ [n] = tgt ++ u) →
    (getE root tgt).isSome →
    (getE root2 tgt).isSome ∧ ∀ n ∈ names, getE root2 (src ++ [n]) = none := by
  intro names
  induction names with
  | nil =>
    intro root root2 h _ _ hts
    unfold move_foldersLoop at h
    cases h
    exact ⟨hts, by simp⟩
  | cons name rest ih =>
    intro root root2 h hd hrel hts
    have hreln := hrel name (by simp)
    have hdr : ∀ n ∈ rest, ∀ m ∈ rest, diverge (src ++ [n]) (tgt ++ [m]) = true :=
      fun n hn m hm => hd n (by simp [hn]) m (by simp [hm])
    have hrelr : ∀ n ∈ rest, diverge (src ++ [n]) tgt = true ∨
        ∃ u, u ≠ [] ∧ src ++ [n] = tgt ++ u := fun n hn => hrel n (by simp [hn])
    have htqr : ∀ n ∈ rest, diverge (tgt ++ [n]) (src ++ [name]) = true :=
      fun n hn => by
        rw [diverge_symm]
        exact hd name (by simp) n (by simp [hn])
    have hsqr : ∀ n ∈ rest,
        diverge (src ++ [n]) (src ++ [name]) = true ∨ src ++ [n] = src ++ [name] :=
      fun n _ => by
        by_cases hnm : n = name
        · exact Or.inr (by rw [hnm])
        · exact Or.inl (diverge_append_ne src [] [] hnm)
    have hqt : diverge tgt (src ++ [name]) = true ∨
        ∃ u, u ≠ [] ∧ src ++ [name] = tgt ++ u := by
      rcases hreln with hdv | hext
      · exact Or.inl (by rw [diverge_symm]; exact hdv)
      · exact Or.inr hext
    -- Process the head iteration, establishing absence of `src/name`.
    unfold move_foldersLoop at h
    cases hex : check_folder_exists root (src ++ [name]) with
    | false =>
      rw [hex] at h
      simp only [Bool.false_eq_true, if_false] at h
      have habs : getE root (src ++ [name]) = none := by
        cases hg : getE root (src ++ [name]) with
        | none => rfl
        | some e => rw [check_folder_exists, hg] at hex; cases hex
      obtain ⟨hts2, habs2⟩ := move_foldersLoop_inv h hrelr htqr hsqr hqt hts habs
      obtain ⟨hts3, hrest⟩ := ih h hdr hrelr hts
      refine ⟨hts3, fun n hn => ?_⟩
      rcases List.mem_cons.mp hn with rfl | hn'
      · exact habs2
      · exact hrest n hn'
    | true =>
      have hsrcS : (getE root (src ++ [name])).isSome := by
        simpa [check_folder_exists] using hex
      obtain ⟨e, hsrc⟩ := Option.isSome_iff_exists.mp hsrcS
      rw [hex] at h
      simp only [if_true] at h
      cases hext : check_folder_exists root (tgt ++ [name]) with
      | true =>
        rw [hext] at h
        simp only [if_true] at h
        have hextS : (getE root (tgt ++ [name])).isSome := by
          simpa [check_folder_exists] using hext
        obtain ⟨e', hext'⟩ := Option.isSome_iff_exists.mp hextS
        obtain ⟨dch, hdch⟩ := dir_of_below hext' (by simp)
        cases hlf : list_files root (src ++ [name]) with
        | error m => simp [hlf] at h
        | ok items =>
          simp only [hlf] at h
          cases hmi : mergeItems root (src ++ [name]) (tgt ++ [name]) items with
          | error m => simp [hmi] at h
          | ok r1 =>
            simp only [hmi] at h
            have hts1 : (getE r1 tgt).isSome := by
              obtain ⟨ch1, hch1⟩ := mergeItems_keepsDir rfl hmi ⟨dch, hdch⟩
              simp [hch1]
            cases hrm : rmtreeE r1 (src ++ [name]) with
            | error m => simp [hrm] at h
            | ok r2 =>
              simp only [hrm] at h
              have habs2 : getE r2 (src ++ [name]) = none := rmtreeE_self hrm
              have hts2 : (getE r2 tgt).isSome := by
                rcases hreln with hdv | ⟨u, hu, hequ⟩
                · rw [rmtreeE_frame hdv hrm]; exact hts1
                · obtain ⟨ch2, hch2⟩ := rmtreeE_prefix hu (hequ ▸ hrm)
                  simp [hch2]
              obtain ⟨hts3, habs3⟩ :=
                move_foldersLoop_inv h hrelr htqr hsqr hqt hts2 habs2
              obtain ⟨hts4, hrest⟩ := ih h hdr hrelr hts2
              refine ⟨hts4, fun n hn => ?_⟩
              rcases List.mem_cons.mp hn with rfl | hn'
              · exact habs3
              · exact hrest n hn'
      | false =>
        rw [hext] at h
        simp only [Bool.false_eq_true, if_false] at h
        cases hmv : moveE root (src ++ [name]) tgt name with
        | error m => simp [hmv] at h
        | ok r1 =>
          simp only [hmv] at h
          obtain ⟨et, hdst⟩ := Option.isSome_iff_exists.mp hts
          have hstep : (getE r1 tgt).isSome ∧ getE r1 (src ++ [name]) = none := by
            cases et with
            | dir dch =>
              obtain ⟨hnb, r, hrm, hput⟩ := moveE_dir_spec hsrc hdst hmv
              constructor
              · obtain ⟨ch1, hch1⟩ := putE_prefix tgt [name] r r1 (by simp) hput
                simp [hch1]
              · rw [putE_frame (by
                    rw [diverge_symm]
                    exact hd name (by simp) name (by simp)) hput]
                exact putE_getE_self hrm
            | file fd =>
              obtain ⟨efd, rfl, r, hrm, hput⟩ := moveE_file_spec hsrc hdst hmv
              constructor
              · rw [putE_getE_self hput]; rfl
              · rcases hqt with hdv | ⟨u, hu, hequ⟩
                · rw [putE_frame hdv hput]
                  exact putE_getE_self hrm
                · rw [hequ]
                  exact below_file_none (putE_getE_self hput) hu
          obtain ⟨hts1, habs1⟩ := hstep
          obtain ⟨hts2, habs2⟩ :=
            move_foldersLoop_inv h hrelr htqr hsqr hqt hts1 habs1
          obtain ⟨hts3, hrest⟩ := ih h hdr hrelr hts1
          refine ⟨hts3, fun n hn => ?_⟩
          rcases List.mem_cons.mp hn with rfl | hn'
          · exact habs2
          · exact hrest n hn'

/-- `move_folders` post-condition: target present, each source subfolder
gone. -/
theorem move_folders_main {src tgt : Path} {names : List String}
    {root root2 : Ent}
    (h : move_folders root names src tgt = .ok root2)
    (hd : ∀ n ∈ names, ∀ m ∈ names, diverge (src ++ [n]) (tgt ++ [m]) = true)
    (hrel : ∀ n ∈ names, diverge (src ++ [n]) tgt = true ∨
      ∃ u, u ≠ [] ∧ src ++ [n] = tgt ++ u) :
    (getE root2 tgt).isSome ∧ ∀ n ∈ names, getE root2 (src ++ [n]) = none := by
  unfold move_folders at h
  cases hcf : create_folder root tgt with
  | error m => rw [hcf] at h; cases h
  | ok r =>
    rw [hcf] at h
    exact move_foldersLoop_main h hd hrel (create_folder_isSome hcf)

/-- `move_folders` frame when the query path diverges from the target
folder and from every source subfolder. -/
theorem move_folders_frameA {src tgt q : Path} {names : List String}
    {root root2 : Ent}
    (h : move_folders root names src tgt = .ok root2)
    (htq : diverge tgt q = true)
    (hs : ∀ n ∈ names, diverge (src ++ [n]) q = true) :
    getE root2 q = getE root q := by
  unfold move_folders at h
  cases hcf : create_folder root tgt with
  | error m => rw [hcf] at h; cases h
  | ok r =>
    rw [hcf] at h
    rw [move_foldersLoop_frameA htq h hs, create_folder_frame htq hcf]

/-- `move_folders` loop frame when the query path sits strictly below the
target folder (which is a directory): the value at the query path is
preserved when it diverges from every touched subpath. -/
theorem move_foldersLoop_frameB {src tgt q : Path} :
    ∀ {names : List String} {root root2 : Ent},
    move_foldersLoop root src tgt names = .ok root2 →
    (∀ n ∈ names, diverge (src ++ [n]) tgt = true ∨
      ∃ u, u ≠ [] ∧ src ++ [n] = tgt ++ u) →
    (∀ n ∈ names, diverge (tgt ++ [n]) q = true) →
    (∀ n ∈ names, diverge (src ++ [n]) q = true) →
    (∃ ch, getE root tgt = some (.dir ch)) →
    (∃ ch, getE root2 tgt = some (.dir ch)) ∧ getE root2 q = getE root q := by
  intro names
  induction names with
  | nil =>
    intro root root2 h _ _ _ hdir
    unfold move_foldersLoop at h
    cases h
    exact ⟨hdir, rfl⟩
  | cons name rest ih =>
    intro root root2 h hrel htq hsq hdir
    have hreln := hrel name (by simp)
    have htqn := htq name (by simp)
    have hsqn := hsq name (by simp)
    have hrelr : ∀ n ∈ rest, diverge (src ++ [n]) tgt = true ∨
        ∃ u, u ≠ [] ∧ src ++ [n] = tgt ++ u := fun n hn => hrel n (by simp [hn])
    have htqr : ∀ n ∈ rest, diverge (tgt ++ [n]) q = true :=
      fun n hn => htq n (by simp [hn])
    have hsqr : ∀ n ∈ rest, diverge (src ++ [n]) q = true :=
      fun n hn => hsq n (by simp [hn])
    unfold move_foldersLoop at h
    cases hex : check_folder_exists root (src ++ [name]) with
    | false =>
      rw [hex] at h
      simp only [Bool.false_eq_true, if_false] at h
      exact ih h hrelr htqr hsqr hdir
    | true =>
      have hsrcS : (getE root (src ++ [name])).isSome := by
        simpa [check_folder_exists] using hex
      obtain ⟨e, hsrc⟩ := Option.isSome_iff_exists.mp hsrcS
      rw [hex] at h
      simp only [if_true] at h
      cases hext : check_folder_exists root (tgt ++ [name]) with
      | true =>
        rw [hext] at h
        simp only [if_true] at h
        cases hlf : list_files root (src ++ [name]) with
        | error m => simp [hlf] at h
        | ok items =>
          simp only [hlf] at h
          cases hmi : mergeItems root (src ++ [name]) (tgt ++ [name]) items with
          | error m => simp [hmi] at h
          | ok r1 =>
            simp only [hmi] at h
            have hdir1 := mergeItems_keepsDir rfl hmi hdir
            have hq1 : getE r1 q = getE root q := mergeItems_frame hmi htqn
            cases hrm : rmtreeE r1 (src ++ [name]) with
            | error m => simp [hrm] at h
            | ok r2 =>
              simp only [hrm] at h
              have hq2 : getE r2 q = getE root q := by
                rw [rmtreeE_frame hsqn hrm, hq1]
              have hdir2 : ∃ ch, getE r2 tgt = some (.dir ch) := by
                rcases hreln with hdv | ⟨u, hu, hequ⟩
                · rw [rmtreeE_frame hdv hrm]; exact hdir1
                · exact rmtreeE_prefix hu (hequ ▸ hrm)
              obtain ⟨hdir3, hq3⟩ := ih h hrelr htqr hsqr hdir2
              exact ⟨hdir3, by rw [hq3, hq2]⟩
      | false =>
        rw [hext] at h
        simp only [Bool.false_eq_true, if_false] at h
        cases hmv : moveE root (src ++ [name]) tgt name with
        | error m => simp [hmv] at h
        | ok r1 =>
          simp only [hmv] at h
          obtain ⟨dch, hdst⟩ := hdir
          obtain ⟨hnb, r, hrm, hput⟩ := moveE_dir_spec hsrc hdst hmv
          have hq1 : getE r1 q = getE root q := by
            rw [putE_frame htqn hput, putE_frame hsqn hrm]
          have hdir1 : ∃ ch, getE r1 tgt = some (.dir ch) :=
            putE_prefix tgt [name] r r1 (by simp) hput
          obtain ⟨hdir2, hq2⟩ := ih h hrelr htqr hsqr hdir1
          exact ⟨hdir2, by rw [hq2, hq1]⟩

/-- `move_folders` frame below an existing target directory. -/
theorem move_folders_frameB {src tgt q : Path} {names : List String}
    {root root2 : Ent}
    (h : move_folders root names src tgt = .ok root2)
    (hrel : ∀ n ∈ names, diverge (src ++ [n]) tgt = true ∨
      ∃ u, u ≠ [] ∧ src ++ [n] = tgt ++ u)
    (htq : ∀ n ∈ names, diverge (tgt ++ [n]) q = true)
    (hsq : ∀ n ∈ names, diverge (src ++ [n]) q = true)
    (hdir : ∃ ch, getE root tgt = some (.dir ch)) :
    (∃ ch, getE root2 tgt = some (.dir ch)) ∧ getE root2 q = getE root q := by
  unfold move_folders at h
  obtain ⟨dch, hdch⟩ := hdir
  rw [create_folder_of_exists (by simp [hdch])] at h
  exact move_foldersLoop_frameB h hrel htq hsq ⟨dch, hdch⟩

/-- After `process_wg_folder` returns, the wrapper folder is gone (or was
never there). -/
theorem process_wg_post {root root2 : Ent} {outP : Path} {wg : String}
    (h : process_wg_folder root outP wg = .ok root2) :
    getE root2 (outP ++ [wg]) = none := by
  unfold process_wg_folder at h
  cases hex : check_folder_exists root (outP ++ [wg]) with
  | false =>
    rw [hex] at h
    simp only [Bool.false_eq_true, not_false_eq_true, if_true] at h
    cases h
    simpa [check_folder_exists] using hex
  | true =>
    rw [hex] at h
    simp only [eq_self_iff_true, not_true, if_false] at h
    cases hloop : wgSubLoop root (outP ++ [wg]) outP ["res_mods", "mods"] with
    | error m => simp [hloop] at h
    | ok r =>
      simp only [hloop] at h
      cases hex2 : check_folder_exists r (outP ++ [wg]) with
      | false =>
        rw [hex2] at h
        simp only [Bool.false_eq_true, if_false] at h
        cases h
        simpa [check_folder_exists] using hex2
      | true =>
        rw [hex2] at h
        simp only [if_true] at h
        exact rmtreeE_self h

/-- Frame for the `res_mods`/`mods` relocation loop of
`process_wg_folder`. -/
theorem wgSubLoop_frame {outP q : Path} {wg : String} :
    ∀ {subs : List String} {root root2 : Ent},
    wgSubLoop root (outP ++ [wg]) outP subs = .ok root2 →
    (∀ s' ∈ subs, diverge (outP ++ [s']) q = true) →
    (diverge (outP ++ [wg]) q = true) →
    (∃ ch, getE root outP = some (.dir ch)) →
    (∃ ch, getE root2 outP = some (.dir ch)) ∧ getE root2 q = getE root q := by
  intro subs
  induction subs with
  | nil =>
    intro root root2 h _ _ hdir
    unfold wgSubLoop at h
    cases h
    exact ⟨hdir, rfl⟩
  | cons sub rest ih =>
    intro root root2 h hsub hwg hdir
    have hsubn := hsub sub (by simp)
    have hsubr : ∀ s' ∈ rest, diverge (outP ++ [s']) q = true :=
      fun s' hs' => hsub s' (by simp [hs'])
    unfold wgSubLoop at h
    cases hex : check_folder_exists root (outP ++ [wg] ++ [sub]) with
    | false =>
      rw [hex] at h
      simp only [Bool.false_eq_true, if_false] at h
      exact ih h hsubr hwg hdir
    | true =>
      rw [hex] at h
      simp only [if_true] at h
      cases hmf : move_folders root [sub] (outP ++ [wg]) outP with
      | error m => simp [hmf] at h
      | ok r =>
        simp only [hmf] at h
        have hstep := move_folders_frameB hmf
          (by
            intro n hn
            simp only [List.mem_singleton] at hn
            subst hn
            exact Or.inr ⟨[wg, n], by simp, by simp⟩)
          (by
            intro n hn
            simp only [List.mem_singleton] at hn
            subst hn
            exact hsubn)
          (by
            intro n hn
            simp only [List.mem_singleton] at hn
            subst hn
            simpa using diverge_extend [n] [] hwg)
          hdir
        obtain ⟨hdir1, hq1⟩ := hstep
        obtain ⟨hdir2, hq2⟩ := ih h hsubr hwg hdir1
        exact ⟨hdir2, by rw [hq2, hq1]⟩

/-- Frame for `process_wg_folder`: a path under the output folder that
diverges from the wrapper folder and from the relocated `res_mods` and
`mods` paths is untouched. -/
theorem process_wg_frame {root root2 : Ent} {outP q : Path} {wg : String}
    (h : process_wg_folder root outP wg = .ok root2)
    (hwq : diverge (outP ++ [wg]) q = true)
    (hrq : diverge (outP ++ ["res_mods"]) q = true)
    (hmq : diverge (outP ++ ["mods"]) q = true) :
    getE root2 q = getE root q := by
  unfold process_wg_folder at h
  cases hex : check_folder_exists root (outP ++ [wg]) with
  | false =>
    rw [hex] at h
    simp only [Bool.false_eq_true, not_false_eq_true, if_true] at h
    cases h
    rfl
  | true =>
    rw [hex] at h
    simp only [eq_self_iff_true, not_true, if_false] at h
    have hexS : (getE root (outP ++ [wg])).isSome := by
      simpa [check_folder_exists] using hex
    obtain ⟨e, he⟩ := Option.isSome_iff_exists.mp hexS
    obtain ⟨och, hoch⟩ := dir_of_below he (by simp)
    cases hloop : wgSubLoop root (outP ++ [wg]) outP ["res_mods", "mods"] with
    | error m => simp [hloop] at h
    | ok r =>
      simp only [hloop] at h
      have hstep := wgSubLoop_frame hloop
        (by
          intro s' hs'
          simp only [List.mem_cons, List.mem_singleton] at hs'
          rcases hs' with rfl | rfl | hs'
          · exact hrq
          · exact hmq
          · exact absurd hs' (List.not_mem_nil s'))
        hwq ⟨och, hoch⟩
      obtain ⟨hdir1, hq1⟩ := hstep
      cases hex2 : check_folder_exists r (outP ++ [wg]) with
      | false =>
        rw [hex2] at h
        simp only [Bool.false_eq_true, if_false] at h
        cases h
        exact hq1
      | true =>
        rw [hex2] at h
        simp only [if_true] at h
        rw [rmtreeE_frame hwq h, hq1]

/- ------------------------------------------------------------------
Lemmas about the cleanup stage and `move_file`.
------------------------------------------------------------------ -/

theorem delete_files_noop {folder : Path} :
    ∀ {files : List String} {root : Ent},
    (∀ n ∈ files, getE root (folder ++ [n]) = none) →
    delete_files root files folder = .ok root := by
  intro files
  induction files with
  | nil => intro root _; rfl
  | cons n rest ih =>
    intro root habs
    unfold delete_files
    have hex : check_folder_exists root (folder ++ [n]) = false := by
      simp [check_folder_exists, habs n (by simp)]
    rw [hex]
    simpa using ih (fun m hm => habs m (by simp [hm]))

theorem delete_files_none_mono {folder q : Path} :
    ∀ {files : List String} {root root2 : Ent},
    delete_files root files folder = .ok root2 →
    getE root q = none → getE root2 q = none := by
  intro files
  induction files with
  | nil =>
    intro root root2 h hq
    unfold delete_files at h
    cases h
    exact hq
  | cons n rest ih =>
    intro root root2 h hq
    unfold delete_files at h
    cases hex : check_folder_exists root (folder ++ [n]) with
    | false =>
      rw [hex] at h
      simp only [Bool.false_eq_true, if_false] at h
      exact ih h hq
    | true =>
      rw [hex] at h
      simp only [if_true] at h
      cases hrm : removeE root (folder ++ [n]) with
      | error m => simp [hrm] at h
      | ok r =>
        simp only [hrm] at h
        exact ih h (removeE_none_mono hrm hq)

theorem delete_files_post {folder : Path} :
    ∀ {files : List String} {root root2 : Ent},
    delete_files root files folder = .ok root2 →
    ∀ n ∈ files, getE root2 (folder ++ [n]) = none := by
  intro files
  induction files with
  | nil => intro root root2 _ n hn; cases hn
  | cons n rest ih =>
    intro root root2 h m hm
    unfold delete_files at h
    cases hex : check_folder_exists root (folder ++ [n]) with
    | false =>
      rw [hex] at h
      simp only [Bool.false_eq_true, if_false] at h
      rcases List.mem_cons.mp hm with rfl | hm'
      · refine delete_files_none_mono h ?_
        cases hg : getE root (folder ++ [m]) with
        | none => rfl
        | some e => rw [check_folder_exists, hg] at hex; cases hex
      · exact ih h m hm'
    | true =>
      rw [hex] at h
      simp only [if_true] at h
      cases hrm : removeE root (folder ++ [n]) with
      | error m' => simp [hrm] at h
      | ok r =>
        simp only [hrm] at h
        rcases List.mem_cons.mp hm with rfl | hm'
        · exact delete_files_none_mono h (removeE_self hrm)
        · exact ih h m hm'

theorem delete_files_frame {folder q : Path} :
    ∀ {files : List String} {root root2 : Ent},
    delete_files root files folder = .ok root2 →
    (∀ n ∈ files, diverge (folder ++ [n]) q = true) →
    getE root2 q = getE root q := by
  intro files
  induction files with
  | nil =>
    intro root root2 h _
    unfold delete_files at h
    cases h
    rfl
  | cons n rest ih =>
    intro root root2 h hdv
    unfold delete_files at h
    cases hex : check_folder_exists root (folder ++ [n]) with
    | false =>
      rw [hex] at h
      simp only [Bool.false_eq_true, if_false] at h
      exact ih h (fun m hm => hdv m (by simp [hm]))
    | true =>
      rw [hex] at h
      simp only [if_true] at h
      cases hrm : removeE root (folder ++ [n]) with
      | error m' => simp [hrm] at h
      | ok r =>
        simp only [hrm] at h
        rw [ih h (fun m hm => hdv m (by simp [hm])),
          removeE_frame (hdv n (by simp)) hrm]

theorem delete_folders_noop {folder : Path} :
    ∀ {folders : List String} {root : Ent},
    (∀ n ∈ folders, getE root (folder ++ [n]) = none) →
    delete_folders root folders folder = .ok root := by
  intro folders
  induction folders with
  | nil => intro root _; rfl
  | cons n rest ih =>
    intro root habs
    unfold delete_folders
    have hex : check_folder_exists root (folder ++ [n]) = false := by
      simp [check_folder_exists, habs n (by simp)]
    rw [hex]
    simpa using ih (fun m hm => habs m (by simp [hm]))

theorem delete_folders_none_mono {folder q : Path} :
    ∀ {folders : List String} {root root2 : Ent},
    delete_folders root folders folder = .ok root2 →
    getE root q = none → getE root2 q = none := by
  intro folders
  induction folders with
  | nil =>
    intro root root2 h hq
    unfold delete_folders at h
    cases h
    exact hq
  | cons n rest ih =>
    intro root root2 h hq
    unfold delete_folders at h
    cases hex : check_folder_exists root (folder ++ [n]) with
    | false =>
      rw [hex] at h
      simp only [Bool.false_eq_true, if_false] at h
      exact ih h hq
    | true =>
      rw [hex] at h
      simp only [if_true] at h
      cases hrm : rmtreeE root (folder ++ [n]) with
      | error m => simp [hrm] at h
      | ok r =>
        simp only [hrm] at h
        exact ih h (rmtreeE_none_mono hrm hq)

theorem delete_folders_post {folder : Path} :
    ∀ {folders : List String} {root root2 : Ent},
    delete_folders root folders folder = .ok root2 →
    ∀ n ∈ folders, getE root2 (folder ++ [n]) = none := by
  intro folders
  induction folders with
  | nil => intro root root2 _ n hn; cases hn
  | cons n rest ih =>
    intro root root2 h m hm
    unfold delete_folders at h
    cases hex : check_folder_exists root (folder ++ [n]) with
    | false =>
      rw [hex] at h
      simp only [Bool.false_eq_true, if_false] at h
      rcases List.mem_cons.mp hm with rfl | hm'
      · refine delete_folders_none_mono h ?_
        cases hg : getE root (folder ++ [m]) with
        | none => rfl
        | some e => rw [check_folder_exists, hg] at hex; cases hex
      · exact ih h m hm'
    | true =>
      rw [hex] at h
      simp only [if_true] at h
      cases hrm : rmtreeE root (folder ++ [n]) with
      | error m' => simp [hrm] at h
      | ok r =>
        simp only [hrm] at h
        rcases List.mem_cons.mp hm with rfl | hm'
        · exact delete_folders_none_mono h (rmtreeE_self hrm)
        · exact ih h m hm'

theorem delete_folders_frame {folder q : Path} :
    ∀ {folders : List String} {root root2 : Ent},
    delete_folders root folders folder = .ok root2 →
    (∀ n ∈ folders, diverge (folder ++ [n]) q = true) →
    getE root2 q = getE root q := by
  intro folders
  induction folders with
  | nil =>
    intro root root2 h _
    unfold delete_folders at h
    cases h
    rfl
  | cons n rest ih =>
    intro root root2 h hdv
    unfold delete_folders at h
    cases hex : check_folder_exists root (folder ++ [n]) with
    | false =>
      rw [hex] at h
      simp only [Bool.false_eq_true, if_false] at h
      exact ih h (fun m hm => hdv m (by simp [hm]))
    | true =>
      rw [hex] at h
      simp only [if_true] at h
      cases hrm : rmtreeE root (folder ++ [n]) with
      | error m' => simp [hrm] at h
      | ok r =>
        simp only [hrm] at h
        rw [ih h (fun m hm => hdv m (by simp [hm])),
          rmtreeE_frame (hdv n (by simp)) hrm]

theorem move_file_noop {src tgt : Path} {name : String} {root : Ent}
    (hts : (getE root tgt).isSome)
    (habs : getE root (src ++ [name]) = none) :
    move_file root name src tgt = .ok root := by
  unfold move_file
  rw [create_folder_of_exists hts]
  have hex : check_folder_exists root (src ++ [name]) = false := by
    simp [check_folder_exists, habs]
  simp [hex]

theorem move_file_post {src tgt : Path} {name : String} {root root2 : Ent}
    (h : move_file root name src tgt = .ok root2)
    (hrel : diverge (src ++ [name]) tgt = true) :
    (getE root2 tgt).isSome ∧ getE root2 (src ++ [name]) = none := by
  unfold move_file at h
  cases hcf : create_folder root tgt with
  | error m => rw [hcf] at h; cases h
  | ok r =>
    rw [hcf] at h
    have hts : (getE r tgt).isSome := create_folder_isSome hcf
    cases hex : check_folder_exists r (src ++ [name]) with
    | false =>
      simp only [hex, Bool.false_eq_true, if_false] at h
      cases h
      refine ⟨hts, ?_⟩
      cases hg : getE root2 (src ++ [name]) with
      | none => rfl
      | some e => rw [check_folder_exists, hg] at hex; cases hex
    | true =>
      simp only [hex, if_true] at h
      have hsrcS : (getE r (src ++ [name])).isSome := by
        simpa [check_folder_exists] using hex
      obtain ⟨e, hsrc⟩ := Option.isSome_iff_exists.mp hsrcS
      obtain ⟨et, hdst⟩ := Option.isSome_iff_exists.mp hts
      cases et with
      | dir dch =>
        obtain ⟨hnb, r1, hrm, hput⟩ := moveE_dir_spec hsrc hdst h
        constructor
        · obtain ⟨ch1, hch1⟩ := putE_prefix tgt [name] r1 root2 (by simp) hput
          simp [hch1]
        · rw [putE_frame (by
            simpa using diverge_extend [name] [] (by
              rw [diverge_symm]; exact hrel)) hput]
          exact putE_getE_self hrm
      | file fd =>
        obtain ⟨efd, rfl, r1, hrm, hput⟩ := moveE_file_spec hsrc hdst h
        constructor
        · rw [putE_getE_self hput]; rfl
        · rw [putE_frame (by rw [diverge_symm]; exact hrel) hput]
          exact putE_getE_self hrm

theorem move_file_frame {src tgt q : Path} {name : String} {root root2 : Ent}
    (h : move_file root name src tgt = .ok root2)
    (hq1 : diverge (src ++ [name]) q = true)
    (hq2 : diverge tgt q = true) :
    getE root2 q = getE root q := by
  unfold move_file at h
  cases hcf : create_folder root tgt with
  | error m => rw [hcf] at h; cases h
  | ok r =>
    rw [hcf] at h
    cases hex : check_folder_exists r (src ++ [name]) with
    | false =>
      simp only [hex, Bool.false_eq_true, if_false] at h
      cases h
      exact create_folder_frame hq2 hcf
    | true =>
      simp only [hex, if_true] at h
      rw [moveE_frame hq1 hq2 h, create_folder_frame hq2 hcf]

/- ------------------------------------------------------------------
The reconciliation sequence.
------------------------------------------------------------------ -/

theorem none_below {root : Ent} {P : Path} (t : Path)
    (h : getE root P = none) : getE root (P ++ t) = none := by
  rw [getE_append, h]
  rfl

/-- The guarded vendor-wrapper step of `run`: afterwards the wrapper is
gone, and paths divergent from the wrapper and from the relocated
`res_mods`/`mods` are untouched. -/
theorem wg_step_post {root root2 : Ent}
    (h : (if check_folder_exists root (output_folder ++ ["WG"]) then
            process_wg_folder root output_folder "WG"
          else .ok root) = .ok root2) :
    getE root2 (output_folder ++ ["WG"]) = none ∧
    (∀ q, diverge (output_folder ++ ["WG"]) q = true →
      diverge (output_folder ++ ["res_mods"]) q = true →
      diverge (output_folder ++ ["mods"]) q = true →
      getE root2 q = getE root q) := by
  cases hg : check_folder_exists root (output_folder ++ ["WG"]) with
  | false =>
    rw [hg] at h
    simp only [Bool.false_eq_true, if_false] at h
    cases h
    constructor
    · cases hge : getE root (output_folder ++ ["WG"]) with
      | none => rfl
      | some e => rw [check_folder_exists, hge] at hg; cases hg
    · intro q _ _ _
      rfl
  | true =>
    rw [hg] at h
    simp only [if_true] at h
    exact ⟨process_wg_post h, fun q a b c => process_wg_frame h a b c⟩

/-- The guarded nested-mods step of `run`: afterwards the wrapper's `mods`
subfolder is gone; divergent paths are untouched; the canonical
`mods/2.0.0.1` folder survives. -/
theorem nested_step_post {root root2 : Ent}
    (h : (if check_folder_exists root (output_folder ++ [nested_wrapper, "mods"]) then
            match move_folders root ["mods"] (output_folder ++ [nested_wrapper, "mods"])
                (output_folder ++ ["mods"]) with
            | Except.error m => Except.error m
            | Except.ok r =>
              if check_folder_exists r (output_folder ++ [nested_wrapper]) then
                rmtreeE r (output_folder ++ [nested_wrapper])
              else Except.ok r
          else Except.ok root) = Except.ok root2) :
    getE root2 (output_folder ++ [nested_wrapper, "mods"]) = none ∧
    (∀ q, diverge (output_folder ++ ["mods"]) q = true →
      diverge (output_folder ++ [nested_wrapper]) q = true →
      getE root2 q = getE root q) ∧
    ((getE root (output_folder ++ ["mods", "2.0.0.1"])).isSome →
      (getE root2 (output_folder ++ ["mods", "2.0.0.1"])).isSome) := by
  have hassoc : output_folder ++ [nested_wrapper, "mods"] =
      (output_folder ++ [nested_wrapper]) ++ ["mods"] := by
    rw [List.append_assoc]
    rfl
  cases hg : check_folder_exists root (output_folder ++ [nested_wrapper, "mods"]) with
  | false =>
    rw [hg] at h
    simp only [Bool.false_eq_true, if_false] at h
    cases h
    refine ⟨?_, fun q _ _ => rfl, fun hs => hs⟩
    cases hge : getE root (output_folder ++ [nested_wrapper, "mods"]) with
    | none => rfl
    | some e => rw [check_folder_exists, hge] at hg; cases hg
  | true =>
    rw [hg] at h
    simp only [if_true] at h
    cases hmf : move_folders root ["mods"] (output_folder ++ [nested_wrapper, "mods"])
        (output_folder ++ ["mods"]) with
    | error m => simp [hmf] at h
    | ok r6 =>
      simp only [hmf] at h
      have hsub : ∀ q, diverge (output_folder ++ ["mods"]) q = true →
          diverge (output_folder ++ [nested_wrapper]) q = true →
          getE r6 q = getE root q := by
        intro q h1 h2
        refine move_folders_frameA hmf h1 ?_
        intro n hn
        simp only [List.mem_singleton] at hn
        subst hn
        simpa using diverge_extend ["mods", "mods"] [] h2
      have hkeep : (getE root (output_folder ++ ["mods", "2.0.0.1"])).isSome →
          (getE r6 (output_folder ++ ["mods", "2.0.0.1"])).isSome := by
        intro hs
        obtain ⟨e, he⟩ := Option.isSome_iff_exists.mp hs
        have he' : getE root ((output_folder ++ ["mods"]) ++ ["2.0.0.1"]) = some e := by
          rw [List.append_assoc]
          exact he
        obtain ⟨dch, hdch⟩ := dir_of_below he' (by simp)
        have hstep := @move_folders_frameB
          (output_folder ++ [nested_wrapper, "mods"]) (output_folder ++ ["mods"])
          (output_folder ++ ["mods", "2.0.0.1"]) ["mods"] root r6 hmf
          (by
            intro n hn
            simp only [List.mem_singleton] at hn
            subst hn
            exact Or.inl (by decide))
          (by
            intro n hn
            simp only [List.mem_singleton] at hn
            subst hn
            decide)
          (by
            intro n hn
            simp only [List.mem_singleton] at hn
            subst hn
            decide)
          ⟨dch, hdch⟩
        rw [hstep.2, he]
        rfl
      cases hg2 : check_folder_exists r6 (output_folder ++ [nested_wrapper]) with
      | false =>
        rw [hg2] at h
        simp only [Bool.false_eq_true, if_false] at h
        cases h
        have hwnone : getE root2 (output_folder ++ [nested_wrapper]) = none := by
          cases hge : getE root2 (output_folder ++ [nested_wrapper]) with
          | none => rfl
          | some e => rw [check_folder_exists, hge] at hg2; cases hg2
        exact ⟨by rw [hassoc]; exact none_below ["mods"] hwnone, hsub, hkeep⟩
      | true =>
        rw [hg2] at h
        simp only [if_true] at h
        have hwnone : getE root2 (output_folder ++ [nested_wrapper]) = none :=
          rmtreeE_self h
        refine ⟨by rw [hassoc]; exact none_below ["mods"] hwnone, ?_, ?_⟩
        · intro q h1 h2
          rw [rmtreeE_frame h2 h]
          exact hsub q h1 h2
        · intro hs
          rw [rmtreeE_frame (by decide) h]
          exact hkeep hs

/-- State of the output folder root after a successful reconciliation:
every denylisted name, the vendor wrapper, the relocated `objects`,
`scripts` and loose mod file, and the wrapper's nested `mods` path are
gone, and both canonical version folders are present. -/
theorem reconcile_post {root root2 : Ent} (h : reconcile root = .ok root2) :
    (∀ n ∈ files_to_delete, getE root2 (output_folder ++ [n]) = none) ∧
    (∀ n ∈ folders_to_delete, getE root2 (output_folder ++ [n]) = none) ∧
    getE root2 (output_folder ++ ["WG"]) = none ∧
    getE root2 (output_folder ++ ["objects"]) = none ∧
    getE root2 (output_folder ++ ["scripts"]) = none ∧
    getE root2 (output_folder ++ [wotmod_file]) = none ∧
    getE root2 (output_folder ++ [nested_wrapper, "mods"]) = none ∧
    (getE root2 (output_folder ++ ["res_mods", "2.0.0.1"])).isSome ∧
    (getE root2 (output_folder ++ ["mods", "2.0.0.1"])).isSome := by
  unfold reconcile at h
  cases hdf : delete_files root files_to_delete output_folder with
  | error m => rw [hdf] at h; cases h
  | ok r1 =>
  simp only [hdf] at h
  cases hdfo : delete_folders r1 folders_to_delete output_folder with
  | error m => simp [hdfo] at h
  | ok r2 =>
  simp only [hdfo] at h
  cases hwg : (if check_folder_exists r2 (output_folder ++ ["WG"]) then
      process_wg_folder r2 output_folder "WG" else Except.ok r2) with
  | error m => simp [hwg] at h
  | ok r3 =>
  simp only [hwg] at h
  obtain ⟨hwg_none, hwg_frame⟩ := wg_step_post hwg
  cases hmf : move_folders r3 ["objects", "scripts"] output_folder
      (output_folder ++ ["res_mods", "2.0.0.1"]) with
  | error m => simp [hmf] at h
  | ok r4 =>
  simp only [hmf] at h
  cases hmv : move_file r4 wotmod_file output_folder
      (output_folder ++ ["mods", "2.0.0.1"]) with
  | error m => simp [hmv] at h
  | ok r5 =>
  simp only [hmv] at h
  obtain ⟨hn_none, hn_frame, hn_keep⟩ := nested_step_post h
  have hf4 : ∀ q, diverge (output_folder ++ ["res_mods", "2.0.0.1"]) q = true →
      diverge (output_folder ++ ["objects"]) q = true →
      diverge (output_folder ++ ["scripts"]) q = true →
      getE r4 q = getE r3 q := by
    intro q h1 h2 h3
    refine move_folders_frameA hmf h1 ?_
    intro n hn
    fin_cases hn
    · exact h2
    · exact h3
  have hf5 : ∀ q, diverge (output_folder ++ [wotmod_file]) q = true →
      diverge (output_folder ++ ["mods", "2.0.0.1"]) q = true →
      getE r5 q = getE r4 q := fun q a b => move_file_frame hmv a b
  obtain ⟨hts4, habs4⟩ := move_folders_main hmf (by decide)
    (by
      intro n hn
      refine Or.inl ?_
      fin_cases hn <;> decide)
  obtain ⟨hts5, habs5⟩ := move_file_post hmv (by decide)
  have hpres : ∀ n : String, n ≠ "WG" → n ≠ "res_mods" → n ≠ "mods" →
      n ≠ "objects" → n ≠ "scripts" → n ≠ wotmod_file → n ≠ nested_wrapper →
      getE root2 (output_folder ++ [n]) = getE r2 (output_folder ++ [n]) := by
    intro n d1 d2 d3 d4 d5 d6 d7
    rw [hn_frame _ (diverge_append_ne output_folder [] [] (Ne.symm d3))
      (diverge_append_ne output_folder [] [] (Ne.symm d7)),
      hf5 _ (diverge_append_ne output_folder [] [] (Ne.symm d6))
      (diverge_append_ne output_folder ["2.0.0.1"] [] (Ne.symm d3)),
      hf4 _ (diverge_append_ne output_folder ["2.0.0.1"] [] (Ne.symm d2))
      (diverge_append_ne output_folder [] [] (Ne.symm d4))
      (diverge_append_ne output_folder [] [] (Ne.symm d5)),
      hwg_frame _ (diverge_append_ne output_folder [] [] (Ne.symm d1))
      (diverge_append_ne output_folder [] [] (Ne.symm d2))
      (diverge_append_ne output_folder [] [] (Ne.symm d3))]
  have hside : ∀ n ∈ files_to_delete ++ folders_to_delete,
      n ≠ "WG" ∧ n ≠ "res_mods" ∧ n ≠ "mods" ∧ n ≠ "objects" ∧ n ≠ "scripts" ∧
      n ≠ wotmod_file ∧ n ≠ nested_wrapper := by decide
  refine ⟨?_, ?_, ?_, ?_, ?_, ?_, hn_none, ?_, ?_⟩
  · intro n hn
    obtain ⟨d1, d2, d3, d4, d5, d6, d7⟩ :=
      hside n (List.mem_append_left _ hn)
    rw [hpres n d1 d2 d3 d4 d5 d6 d7]
    exact delete_folders_none_mono hdfo (delete_files_post hdf n hn)
  · intro n hn
    obtain ⟨d1, d2, d3, d4, d5, d6, d7⟩ :=
      hside n (List.mem_append_right _ hn)
    rw [hpres n d1 d2 d3 d4 d5 d6 d7]
    exact delete_folders_post hdfo n hn
  · rw [hn_frame _ (by decide) (by decide), hf5 _ (by decide) (by decide),
      hf4 _ (by decide) (by decide) (by decide)]
    exact hwg_none
  · rw [hn_frame _ (by decide) (by decide), hf5 _ (by decide) (by decide)]
    exact habs4 "objects" (by simp)
  · rw [hn_frame _ (by decide) (by decide), hf5 _ (by decide) (by decide)]
    exact habs4 "scripts" (by simp)
  · rw [hn_frame _ (by decide) (by decide)]
    exact habs5
  · rw [hn_frame _ (by decide) (by decide), hf5 _ (by decide) (by decide)]
    exact hts4
  · exact hn_keep hts5

/-- Any root-level output name no reorganization rule mentions is left
with exactly the value it had before reconciliation. -/
theorem reconcile_frame {root root2 : Ent} (h : reconcile root = .ok root2) :
    ∀ n : String, n ∉ touched_names →
    getE root2 (output_folder ++ [n]) = getE root (output_folder ++ [n]) := by
  intro n hn
  have hni : ∀ m ∈ touched_names, m ≠ n := by
    intro m hm heq
    exact hn (heq ▸ hm)
  have d1 : "WG" ≠ n := hni "WG" (by decide)
  have d2 : "res_mods" ≠ n := hni "res_mods" (by decide)
  have d3 : "mods" ≠ n := hni "mods" (by decide)
  have d4 : "objects" ≠ n := hni "objects" (by decide)
  have d5 : "scripts" ≠ n := hni "scripts" (by decide)
  have d6 : wotmod_file ≠ n := hni wotmod_file (by decide)
  have d7 : nested_wrapper ≠ n := hni nested_wrapper (by decide)
  unfold reconcile at h
  cases hdf : delete_files root files_to_delete output_folder with
  | error m => rw [hdf] at h; cases h
  | ok r1 =>
  simp only [hdf] at h
  cases hdfo : delete_folders r1 folders_to_delete output_folder with
  | error m => simp [hdfo] at h
  | ok r2 =>
  simp only [hdfo] at h
  cases hwg : (if check_folder_exists r2 (output_folder ++ ["WG"]) then
      process_wg_folder r2 output_folder "WG" else Except.ok r2) with
  | error m => simp [hwg] at h
  | ok r3 =>
  simp only [hwg] at h
  obtain ⟨hwg_none, hwg_frame⟩ := wg_step_post hwg
  cases hmf : move_folders r3 ["objects", "scripts"] output_folder
      (output_folder ++ ["res_mods", "2.0.0.1"]) with
  | error m => simp [hmf] at h
  | ok r4 =>
  simp only [hmf] at h
  cases hmv : move_file r4 wotmod_file output_folder
      (output_folder ++ ["mods", "2.0.0.1"]) with
  | error m => simp [hmv] at h
  | ok r5 =>
  simp only [hmv] at h
  obtain ⟨hn_none, hn_frame, hn_keep⟩ := nested_step_post h
  rw [hn_frame _ (diverge_append_ne output_folder [] [] d3)
      (diverge_append_ne output_folder [] [] d7),
    move_file_frame hmv (diverge_append_ne output_folder [] [] d6)
      (diverge_append_ne output_folder ["2.0.0.1"] [] d3)]
  rw [move_folders_frameA hmf (diverge_append_ne output_folder ["2.0.0.1"] [] d2) ?hs]
  case hs =>
    intro m hm
    fin_cases hm
    · exact diverge_append_ne output_folder [] [] d4
    · exact diverge_append_ne output_folder [] [] d5
  rw [hwg_frame _ (diverge_append_ne output_folder [] [] d1)
      (diverge_append_ne output_folder [] [] d2)
      (diverge_append_ne output_folder [] [] d3)]
  rw [delete_folders_frame hdfo (by
    intro m hm
    exact diverge_append_ne output_folder [] []
      (hni m (by
        unfold touched_names
        exact List.mem_append_left _ (List.mem_append_right _ hm))))]
  rw [delete_files_frame hdf (by
    intro m hm
    exact diverge_append_ne output_folder [] []
      (hni m (by
        unfold touched_names
        exact List.mem_append_left _ (List.mem_append_left _ hm))))]

/-- C7: the reconciliation sequence (cleanup, vendor unwrap,
`objects`/`scripts` relocation, mod-file relocation, nested-mods merge)
is idempotent: re-run on its own output, every step finds its source
gone (or its target already in place), raises no error, and returns
the tree unchanged. -/
theorem reconcile_idem {root root2 : Ent} (h : reconcile root = .ok root2) :
    reconcile root2 = .ok root2 := by
  obtain ⟨hA1, hA2, hA3, hA4o, hA4s, hA5, hA6, hA7a, hA7b⟩ := reconcile_post h
  have e1 : delete_files root2 files_to_delete output_folder = .ok root2 :=
    delete_files_noop hA1
  have e2 : delete_folders root2 folders_to_delete output_folder = .ok root2 :=
    delete_folders_noop hA2
  have e3 : check_folder_exists root2 (output_folder ++ ["WG"]) = false := by
    simp [check_folder_exists, hA3]
  have e4 : move_folders root2 ["objects", "scripts"] output_folder
      (output_folder ++ ["res_mods", "2.0.0.1"]) = .ok root2 := by
    unfold move_folders
    rw [create_folder_of_exists hA7a]
    refine move_foldersLoop_noop ?_
    intro m hm
    fin_cases hm
    · exact hA4o
    · exact hA4s
  have e5 : move_file root2 wotmod_file output_folder
      (output_folder ++ ["mods", "2.0.0.1"]) = .ok root2 :=
    move_file_noop hA7b hA5
  have e6 : check_folder_exists root2 (output_folder ++ [nested_wrapper, "mods"]) =
      false := by
    simp [check_folder_exists, hA6]
  unfold reconcile
  simp only [e1, e2, e3, e4, e5, e6, Bool.false_eq_true, if_false]

/- ------------------------------------------------------------------
Extraction-stage lemmas.
------------------------------------------------------------------ -/

theorem tryExtract_err_fst {oracle : Path → Outcome} {root : Ent} {ap outP : Path}
    (he : (oracle ap).isErr = true) :
    (tryExtract oracle root ap outP).1 = root := by
  unfold tryExtract
  by_cases hz : endsWithS (basename ap) ".zip" = true ∨
      endsWithS (basename ap) ".rar" = true
  · rw [if_pos hz]
    cases ho : oracle ap with
    | payload es => rw [ho] at he; simp [Outcome.isErr] at he
    | badZip m => rfl
    | patoolError m => rfl
    | otherError m => rfl
  · rw [if_neg hz]

theorem extract_archive_fst {oracle : Path → Outcome} {root : Ent}
    {ap outP : Path} :
    (extract_archive oracle root ap outP).1 = (tryExtract oracle root ap outP).1 := by
  unfold extract_archive
  cases ht : tryExtract oracle root ap outP with
  | mk r o =>
    cases o with
    | some e => rfl
    | none =>
      by_cases hz : endsWithS (basename ap) ".zip" = true ∨
          endsWithS (basename ap) ".rar" = true
      · simp [hz]
      · simp [hz]

theorem extractLoop_skip_errs {oracle : Path → Outcome} {inP outP : Path} :
    ∀ {pre rest : List String} {root : Ent},
    (∀ f ∈ pre, (oracle (inP ++ [f])).isErr = true) →
    (extractLoop oracle root inP outP (pre ++ rest)).1 =
      (extractLoop oracle root inP outP rest).1 := by
  intro pre
  induction pre with
  | nil => intro rest root _; rfl
  | cons f pre ih =>
    intro rest root hp
    have h1 : (extract_archive oracle root (inP ++ [f]) outP).1 = root := by
      rw [extract_archive_fst]
      exact tryExtract_err_fst (hp f (by simp))
    show (extractLoop oracle
      (extract_archive oracle root (inP ++ [f]) outP).1 inP outP (pre ++ rest)).1 = _
    rw [h1]
    exact ih (fun g hg => hp g (by simp [hg]))

theorem extractLoop_all_err {oracle : Path → Outcome} {inP outP : Path}
    {fs : List String} {root : Ent}
    (hp : ∀ f ∈ fs, (oracle (inP ++ [f])).isErr = true) :
    (extractLoop oracle root inP outP fs).1 = root := by
  have := @extractLoop_skip_errs oracle inP outP fs [] root hp
  simpa using this

/- ------------------------------------------------------------------
Claim theorems.
------------------------------------------------------------------ -/

/-- C1: `extract_archive` never lets an extraction failure escape: a
corrupted `.zip` (`BadZipFile`), a failed `.rar` (`PatoolError`), and
any other extraction exception are caught and turned into a log line
carrying the archive's base name, with the tree unchanged; and in the
extraction loop of `run`, any prefix of failing archives leaves the
tree exactly as if only the remaining archives were processed, so an
earlier corrupt archive never prevents a later valid one. -/
theorem extract_archive_isolates_failures :
    (∀ (oracle : Path → Outcome) (root : Ent) (ap outP : Path) (m : String),
      endsWithS (basename ap) ".zip" = true → oracle ap = .badZip m →
      extract_archive oracle root ap outP =
        (root, [errLog (basename ap) (.badZip m)])) ∧
    (∀ (oracle : Path → Outcome) (root : Ent) (ap outP : Path) (m : String),
      endsWithS (basename ap) ".rar" = true → oracle ap = .patoolError m →
      extract_archive oracle root ap outP =
        (root, [errLog (basename ap) (.patool m)])) ∧
    (∀ (oracle : Path → Outcome) (root : Ent) (ap outP : Path) (m : String),
      (endsWithS (basename ap) ".zip" = true ∨
        endsWithS (basename ap) ".rar" = true) → oracle ap = .otherError m →
      extract_archive oracle root ap outP =
        (root, [errLog (basename ap) (.oserr m)])) ∧
    (∀ (oracle : Path → Outcome) (root : Ent) (inP outP : Path)
      (pre rest : List String),
      (∀ f ∈ pre, (oracle (inP ++ [f])).isErr = true) →
      (extractLoop oracle root inP outP (pre ++ rest)).1 =
        (extractLoop oracle root inP outP rest).1) := by
  refine ⟨?_, ?_, ?_, fun oracle root inP outP pre rest hp =>
    extractLoop_skip_errs hp⟩
  · intro oracle root ap outP m hz ho
    unfold extract_archive tryExtract
    rw [if_pos (Or.inl hz), ho]
  · intro oracle root ap outP m hr ho
    unfold extract_archive tryExtract
    rw [if_pos (Or.inr hr), ho]
  · intro oracle root ap outP m hzr ho
    unfold extract_archive tryExtract
    rw [if_pos hzr, ho]

/-- C8: when the input folder does not exist, `run` prints the message
and returns immediately, performing no filesystem mutation at all. -/
theorem run_missing_input_is_noop (oracle : Path → Outcome) (root : Ent)
    (h : check_folder_exists root folder_path = false) :
    run oracle root = .ok (root, ["Folder ./download_mods does not exist."]) := by
  unfold run
  rw [h]
  simp only [Bool.false_eq_true, not_false_eq_true, if_true]
  rfl

/-- Witness for C8 at a concrete tree without the input folder. -/
theorem run_missing_input_is_noop_witness :
    run (fun _ => Outcome.badZip "") (.dir []) =
      .ok (.dir [], ["Folder ./download_mods does not exist."]) :=
  run_missing_input_is_noop (fun _ => Outcome.badZip "") (.dir []) rfl

/-- C9: `filter_archive_files` returns exactly the names ending in
`.zip` or `.rar`, in their original order, silently excluding all
others; in particular on `["a.zip","b.rar","c.txt","d.jpeg"]` it
returns `["a.zip","b.rar"]`. -/
theorem filter_archive_files_spec :
    filter_archive_files ["a.zip", "b.rar", "c.txt", "d.jpeg"] =
      ["a.zip", "b.rar"] ∧
    (∀ files : List String, (filter_archive_files files).Sublist files) ∧
    (∀ (files : List String) (x : String),
      x ∈ filter_archive_files files ↔
        x ∈ files ∧ (endsWithS x ".zip" = true ∨ endsWithS x ".rar" = true)) := by
  refine ⟨by rfl, fun files => List.filter_sublist files, ?_⟩
  intro files x
  simp [filter_archive_files, List.mem_filter]

/-- C10: every completed `run` on an existing input folder leaves the
canonical directories `res_mods/2.0.0.1` and `mods/2.0.0.1` present
under the output folder, because `move_folders` and `move_file` create
their target folder before checking for any source. -/
theorem run_creates_version_dirs {oracle : Path → Outcome} {root root2 : Ent}
    {logs : List String}
    (h : run oracle root = .ok (root2, logs))
    (hin : check_folder_exists root folder_path = true) :
    (getE root2 (output_folder ++ ["res_mods", "2.0.0.1"])).isSome ∧
    (getE root2 (output_folder ++ ["mods", "2.0.0.1"])).isSome := by
  unfold run at h
  rw [hin] at h
  simp only [eq_self_iff_true, not_true, if_false] at h
  cases hcf : create_folder root output_folder with
  | error m => simp [hcf] at h
  | ok r =>
  simp only [hcf] at h
  cases hlf : list_files r folder_path with
  | error m => simp [hlf] at h
  | ok files =>
  simp only [hlf] at h
  cases hrec : reconcile (extractLoop oracle r folder_path output_folder
      (filter_archive_files files)).1 with
  | error m => simp [hrec] at h
  | ok rr =>
  simp only [hrec, Except.ok.injEq, Prod.mk.injEq] at h
  obtain ⟨rfl, rfl⟩ := h
  obtain ⟨_, _, _, _, _, _, _, h8, h9⟩ := reconcile_post hrec
  exact ⟨h8, h9⟩

/-- Witness for C10: an empty input folder still yields both canonical
directories. -/
theorem run_creates_version_dirs_witness :
    (getE (.dir [("download_mods", .dir []),
        ("unpacking_mods", .dir [("res_mods", .dir [("2.0.0.1", .dir [])]),
          ("mods", .dir [("2.0.0.1", .dir [])])])])
      (output_folder ++ ["res_mods", "2.0.0.1"])).isSome ∧
    (getE (.dir [("download_mods", .dir []),
        ("unpacking_mods", .dir [("res_mods", .dir [("2.0.0.1", .dir [])]),
          ("mods", .dir [("2.0.0.1", .dir [])])])])
      (output_folder ++ ["mods", "2.0.0.1"])).isSome :=
  @run_creates_version_dirs (fun _ => Outcome.badZip "")
    (.dir [("download_mods", .dir [])])
    (.dir [("download_mods", .dir []),
      ("unpacking_mods", .dir [("res_mods", .dir [("2.0.0.1", .dir [])]),
        ("mods", .dir [("2.0.0.1", .dir [])])])]) [] (by rfl) (by rfl)

/-- Witness for C7: reconciling the empty tree, then reconciling its
output again, returns the output unchanged. -/
theorem reconcile_idem_witness :
    reconcile (.dir [("unpacking_mods",
      .dir [("res_mods", .dir [("2.0.0.1", .dir [])]),
        ("mods", .dir [("2.0.0.1", .dir [])])])]) =
    .ok (.dir [("unpacking_mods",
      .dir [("res_mods", .dir [("2.0.0.1", .dir [])]),
        ("mods", .dir [("2.0.0.1", .dir [])])])]) :=
  reconcile_idem (show reconcile (.dir []) = _ from rfl)

/-- Counterexample to C4 as stated: a child of the vendor wrapper other
than `res_mods`/`mods` (here `WG/other.txt` with contents `keepme`) is
destroyed by the run, not left in place. -/
theorem run_wg_extra_child_lost :
    run (fun _ => Outcome.badZip "")
      (.dir [("download_mods", .dir []),
        ("unpacking_mods", .dir [("WG", .dir [
          ("res_mods", .dir [("foo", .dir [])]),
          ("mods", .dir [("bar", .dir [])]),
          ("other.txt", .file "keepme")]),
          ("readme_other.txt", .file "unmatched")])]) =
      .ok (.dir [("download_mods", .dir []),
        ("unpacking_mods", .dir [
          ("readme_other.txt", .file "unmatched"),
          ("res_mods", .dir [("foo", .dir []), ("2.0.0.1", .dir [])]),
          ("mods", .dir [("bar", .dir []), ("2.0.0.1", .dir [])])])], []) ∧
    containsData (.dir [("unpacking_mods", .dir [("WG", .dir [
      ("other.txt", .file "keepme")])])]) "keepme" = true ∧
    containsData (.dir [("download_mods", .dir []),
      ("unpacking_mods", .dir [
        ("readme_other.txt", .file "unmatched"),
        ("res_mods", .dir [("foo", .dir []), ("2.0.0.1", .dir [])]),
        ("mods", .dir [("bar", .dir []), ("2.0.0.1", .dir [])])])])
      "keepme" = false :=
  ⟨rfl, rfl, rfl⟩

/-- C4 (amended): after a successful reconciliation, any root-level
output entry whose name no reorganization rule mentions is left in
place with exactly its previous value; content inside the vendor
wrapper and the numeric-range wrapper is not covered (it is deleted
with its wrapper). -/
theorem reconcile_leaves_unmatched_in_place {root root2 : Ent}
    (h : reconcile root = .ok root2) :
    ∀ n : String, n ∉ touched_names →
    getE root2 (output_folder ++ [n]) = getE root (output_folder ++ [n]) :=
  reconcile_frame h

/-- Witness for the amended C4: a loose unmatched file at the output
root survives reconciliation with its value intact. -/
theorem reconcile_leaves_unmatched_in_place_witness :
    getE (.dir [("unpacking_mods",
        .dir [("readme_other.txt", .file "unmatched"),
          ("res_mods", .dir [("2.0.0.1", .dir [])]),
          ("mods", .dir [("2.0.0.1", .dir [])])])])
      (output_folder ++ ["readme_other.txt"]) =
    getE (.dir [("unpacking_mods",
        .dir [("readme_other.txt", .file "unmatched")])])
      (output_folder ++ ["readme_other.txt"]) :=
  reconcile_leaves_unmatched_in_place
    (show reconcile (.dir [("unpacking_mods",
      .dir [("readme_other.txt", .file "unmatched")])]) = _ from rfl)
    "readme_other.txt" (by decide)

/-- Counterexample to C5 as stated: a file directly under the
numeric-range wrapper's `mods` subfolder (contents `payload`) does not
end up under `output/mods`; it is destroyed with the wrapper. -/
theorem run_nested_mods_content_lost :
    run (fun _ => Outcome.badZip "")
      (.dir [("download_mods", .dir []),
        ("unpacking_mods", .dir [("2 3 5 8 13 17 21 24 27 30",
          .dir [("mods", .dir [("a.wotmod", .file "payload")])])])]) =
      .ok (.dir [("download_mods", .dir []),
        ("unpacking_mods", .dir [
          ("res_mods", .dir [("2.0.0.1", .dir [])]),
          ("mods", .dir [("2.0.0.1", .dir [])])])], []) ∧
    containsData (.dir [("mods", .dir [("a.wotmod", .file "payload")])])
      "payload" = true ∧
    containsData (.dir [("download_mods", .dir []),
      ("unpacking_mods", .dir [
        ("res_mods", .dir [("2.0.0.1", .dir [])]),
        ("mods", .dir [("2.0.0.1", .dir [])])])]) "payload" = false :=
  ⟨rfl, rfl, rfl⟩

/-- C5 (amended): when the numeric-range wrapper's `mods` folder exists,
`run` relocates only its nested `mods` subfolder into `output/mods`
and then deletes the wrapper together with any remaining content (the
wrapper need not be empty). Demonstrated on a tree where
`wrapper/mods` holds both a nested `mods/a.file` and a stray file. -/
theorem run_nested_mods_moves_inner_only :
    run (fun _ => Outcome.badZip "")
      (.dir [("download_mods", .dir []),
        ("unpacking_mods", .dir [("2 3 5 8 13 17 21 24 27 30",
          .dir [("mods", .dir [("mods", .dir [("a.file", .file "x")]),
            ("stray.txt", .file "s")])])])]) =
      .ok (.dir [("download_mods", .dir []),
        ("unpacking_mods", .dir [
          ("res_mods", .dir [("2.0.0.1", .dir [])]),
          ("mods", .dir [("2.0.0.1", .dir []),
            ("mods", .dir [("a.file", .file "x")])])])], []) ∧
    getE (.dir [("download_mods", .dir []),
        ("unpacking_mods", .dir [
          ("res_mods", .dir [("2.0.0.1", .dir [])]),
          ("mods", .dir [("2.0.0.1", .dir []),
            ("mods", .dir [("a.file", .file "x")])])])])
      (output_folder ++ ["mods", "mods", "a.file"]) = some (.file "x") ∧
    getE (.dir [("download_mods", .dir []),
        ("unpacking_mods", .dir [
          ("res_mods", .dir [("2.0.0.1", .dir [])]),
          ("mods", .dir [("2.0.0.1", .dir []),
            ("mods", .dir [("a.file", .file "x")])])])])
      (output_folder ++ ["2 3 5 8 13 17 21 24 27 30"]) = none :=
  ⟨rfl, rfl, rfl⟩

/-- C6 (amended): once the input folder exists, `run` reaches the end of
the step sequence on well-shaped trees: for any input folder contents
and any oracle under which every listed archive fails to extract, the
run completes without raising, producing exactly the canonical output
tree (extraction failures are absorbed, every reconciliation step
skips its missing source, and the two version folders are created). -/
theorem run_all_failures_completes (ic : List (String × Ent))
    (oracle : Path → Outcome)
    (herr : ∀ f ∈ filter_archive_files (ic.map Prod.fst),
      (oracle (folder_path ++ [f])).isErr = true) :
    ∃ logs, run oracle (.dir [("download_mods", .dir ic)]) =
      .ok (.dir [("download_mods", .dir ic),
        ("unpacking_mods", .dir [("res_mods", .dir [("2.0.0.1", .dir [])]),
          ("mods", .dir [("2.0.0.1", .dir [])])])], logs) := by
  have hloop : (extractLoop oracle
      (.dir [("download_mods", .dir ic), ("unpacking_mods", .dir [])])
      folder_path output_folder
      (filter_archive_files (List.map Prod.fst ic))).1 =
      (.dir [("download_mods", .dir ic), ("unpacking_mods", .dir [])]) :=
    extractLoop_all_err herr
  refine ⟨(extractLoop oracle
      (.dir [("download_mods", .dir ic), ("unpacking_mods", .dir [])])
      folder_path output_folder
      (filter_archive_files (List.map Prod.fst ic))).2, ?_⟩
  unfold run
  rw [show check_folder_exists (.dir [("download_mods", .dir ic)]) folder_path =
    true from rfl]
  simp only [eq_self_iff_true, not_true, if_false,
    show create_folder (.dir [("download_mods", .dir ic)]) output_folder =
      .ok (.dir [("download_mods", .dir ic), ("unpacking_mods", .dir [])]) from rfl,
    show list_files (.dir [("download_mods", .dir ic), ("unpacking_mods", .dir [])])
      folder_path = .ok (List.map Prod.fst ic) from rfl,
    hloop,
    show reconcile (.dir [("download_mods", .dir ic), ("unpacking_mods", .dir [])]) =
      .ok (.dir [("download_mods", .dir ic),
        ("unpacking_mods", .dir [("res_mods", .dir [("2.0.0.1", .dir [])]),
          ("mods", .dir [("2.0.0.1", .dir [])])])]) from rfl]

/-- Witness for the amended C6: one corrupt archive, empty-handed run
completing with the canonical tree. -/
theorem run_all_failures_completes_witness :
    ∃ logs, run (fun _ => Outcome.badZip "bad")
      (.dir [("download_mods", .dir [("a.zip", .file "z")])]) =
      .ok (.dir [("download_mods", .dir [("a.zip", .file "z")]),
        ("unpacking_mods", .dir [("res_mods", .dir [("2.0.0.1", .dir [])]),
          ("mods", .dir [("2.0.0.1", .dir [])])])], logs) :=
  run_all_failures_completes [("a.zip", .file "z")] (fun _ => Outcome.badZip "bad")
    (fun _ _ => rfl)

/-- Counterexample to C6 as stated: an archive whose payload creates a
directory named like a denylisted file (`webSite.url`) makes
`delete_files` call `os.remove` on a directory, and the resulting
`IsADirectoryError` escapes `run`. -/
theorem run_denylist_dir_raises :
    run (fun _ => Outcome.payload [.dirE ["webSite.url"]])
      (.dir [("download_mods", .dir [("a.zip", .file "z")])]) =
      .error "IsADirectoryError" := rfl

/-- C3: `move_folders`, move case — when the source subfolder exists and
the target subfolder does not, the whole subtree is renamed across
parents: afterwards `target/name` holds exactly the original
`source/name` entry, the source no longer has the child, and the
target folder itself was created first if absent; moreover a list of
names whose source subfolders are all absent is a no-op (not an
error). -/
theorem move_folders_move_case :
    (∀ (root root2 e : Ent) (src tgt : Path) (name : String),
      getE root (src ++ [name]) = some e →
      getE root (tgt ++ [name]) = none →
      diverge (src ++ [name]) tgt = true →
      (getE root tgt = none ∨ ∃ tch, getE root tgt = some (.dir tch)) →
      move_folders root [name] src tgt = .ok root2 →
      getE root2 (tgt ++ [name]) = some e ∧
      getE root2 (src ++ [name]) = none ∧
      (getE root2 tgt).isSome) ∧
    (∀ (root : Ent) (src tgt : Path) (names : List String),
      (∀ n ∈ names, getE root (src ++ [n]) = none) →
      (getE root tgt).isSome →
      move_folders root names src tgt = .ok root) := by
  constructor
  · intro root root2 e src tgt name hsrc htgtn hdv htgt h
    unfold move_folders at h
    cases hcf : create_folder root tgt with
    | error m => rw [hcf] at h; cases h
    | ok r =>
    rw [hcf] at h
    have hdts : diverge tgt (src ++ [name]) = true := by
      rw [diverge_symm]; exact hdv
    have hsrc_r : getE r (src ++ [name]) = some e := by
      rw [create_folder_frame hdts hcf]; exact hsrc
    have hdir_r : ∃ tch, getE r tgt = some (.dir tch) := by
      unfold create_folder at hcf
      by_cases hex : check_folder_exists root tgt = true
      · rw [if_pos hex] at hcf
        cases hcf
        rcases htgt with hnone | hdir
        · rw [check_folder_exists, hnone] at hex; cases hex
        · exact hdir
      · rw [if_neg hex] at hcf
        exact ⟨[], mkdirs_getE_self hcf⟩
    have htgtn_r : getE r (tgt ++ [name]) = none := by
      unfold create_folder at hcf
      by_cases hex : check_folder_exists root tgt = true
      · rw [if_pos hex] at hcf
        cases hcf
        exact htgtn
      · rw [if_neg hex] at hcf
        have h1 : getE r tgt = some (.dir []) := mkdirs_getE_self hcf
        rw [getE_append, h1]
        rfl
    unfold move_foldersLoop at h
    rw [show check_folder_exists r (src ++ [name]) = true by
      simp [check_folder_exists, hsrc_r]] at h
    simp only [if_true] at h
    rw [show check_folder_exists r (tgt ++ [name]) = false by
      simp [check_folder_exists, htgtn_r]] at h
    simp only [Bool.false_eq_true, if_false] at h
    cases hmv : moveE r (src ++ [name]) tgt name with
    | error m => simp [hmv] at h
    | ok r2 =>
    simp only [hmv] at h
    have hgoal : getE r2 (tgt ++ [name]) = some e ∧
        getE r2 (src ++ [name]) = none ∧ (getE r2 tgt).isSome := by
      obtain ⟨tch, hdch⟩ := hdir_r
      obtain ⟨hnb, rr, hrm, hput⟩ := moveE_dir_spec hsrc_r hdch hmv
      refine ⟨putE_getE_self hput, ?_, ?_⟩
      · rw [putE_frame (by simpa using diverge_extend [name] [] hdts) hput]
        exact putE_getE_self hrm
      · obtain ⟨ch2, hch2⟩ := putE_prefix tgt [name] rr r2 (by simp) hput
        simp [hch2]
    have hr2 : r2 = root2 := by
      unfold move_foldersLoop at h
      cases h
      rfl
    rw [← hr2]
    exact hgoal
  · intro root src tgt names habs hts
    unfold move_folders
    rw [create_folder_of_exists hts]
    exact move_foldersLoop_noop habs

/-- Witness for C3: moving a one-file subtree `sub` from `src` into an
absent `tgt/sub`. -/
theorem move_folders_move_case_witness :
    getE (.dir [("src", .dir []),
        ("tgt", .dir [("sub", .dir [("a.txt", .file "x")])])])
      (["tgt"] ++ ["sub"]) = some (.dir [("a.txt", .file "x")]) ∧
    getE (.dir [("src", .dir []),
        ("tgt", .dir [("sub", .dir [("a.txt", .file "x")])])])
      (["src"] ++ ["sub"]) = none ∧
    (getE (.dir [("src", .dir []),
        ("tgt", .dir [("sub", .dir [("a.txt", .file "x")])])]) ["tgt"]).isSome :=
  move_folders_move_case.1
    (.dir [("src", .dir [("sub", .dir [("a.txt", .file "x")])]), ("tgt", .dir [])])
    (.dir [("src", .dir []), ("tgt", .dir [("sub", .dir [("a.txt", .file "x")])])])
    (.dir [("a.txt", .file "x")]) ["src"] ["tgt"] "sub"
    (by rfl) (by rfl) (by rfl) (Or.inr ⟨[], rfl⟩) (by rfl)

/- ------------------------------------------------------------------
Supporting lemmas for the merge-correctness claim.
------------------------------------------------------------------ -/

theorem wfCh_find_mem : ∀ {sc : List (String × Ent)} {k : String} {e : Ent},
    wfCh sc = true → (k, e) ∈ sc → findCh sc k = some e := by
  intro sc
  induction sc with
  | nil => intro k e _ hm; cases hm
  | cons ke rest ih =>
    intro k e hwf hm
    obtain ⟨k0, e0⟩ := ke
    unfold wfCh at hwf
    simp only [Bool.and_eq_true] at hwf
    obtain ⟨⟨hnone, hwe⟩, hrest⟩ := hwf
    rcases List.mem_cons.mp hm with heq | hm'
    · cases heq
      simp [findCh]
    · have hne : k0 ≠ k := by
        intro heq
        subst heq
        have : findCh rest k0 = some e := ih hrest hm'
        rw [this] at hnone
        cases hnone
      simp [findCh, hne]
      exact ih hrest hm'

theorem wfCh_mem_wf : ∀ {sc : List (String × Ent)} {k : String} {e : Ent},
    wfCh sc = true → (k, e) ∈ sc → wfEnt e = true := by
  intro sc
  induction sc with
  | nil => intro k e _ hm; cases hm
  | cons ke rest ih =>
    intro k e hwf hm
    obtain ⟨k0, e0⟩ := ke
    unfold wfCh at hwf
    simp only [Bool.and_eq_true] at hwf
    obtain ⟨⟨hnone, hwe⟩, hrest⟩ := hwf
    rcases List.mem_cons.mp hm with heq | hm'
    · cases heq
      exact hwe
    · exact ih hrest hm'

theorem compatList_find : ∀ {tc sc : List (String × Ent)} {k : String} {e : Ent},
    compatList tc sc = true → (k, e) ∈ sc → compat (findCh tc k) e = true := by
  intro tc sc
  induction sc with
  | nil => intro k e _ hm; cases hm
  | cons ke rest ih =>
    intro k e hc hm
    obtain ⟨k0, e0⟩ := ke
    unfold compatList at hc
    simp only [Bool.and_eq_true] at hc
    obtain ⟨hc0, hcrest⟩ := hc
    rcases List.mem_cons.mp hm with heq | hm'
    · cases heq
      exact hc0
    · exact ih hcrest hm'

theorem findCh_isSome_of_mem_keys : ∀ {sc : List (String × Ent)} {k : String},
    k ∈ sc.map Prod.fst → (findCh sc k).isSome := by
  intro sc
  induction sc with
  | nil => intro k hm; cases hm
  | cons ke rest ih =>
    intro k hm
    obtain ⟨k0, e0⟩ := ke
    by_cases hk : k0 = k
    · simp [findCh, hk]
    · simp only [List.map_cons, List.mem_cons] at hm
      rcases hm with rfl | hm'
      · exact absurd rfl hk
      · simp only [findCh, if_neg hk]
        exact ih hm'

theorem mkdirsOk_noop : ∀ (P : Path) (root : Ent),
    (∃ ch, getE root P = some (.dir ch)) → mkdirsOk root P = .ok root := by
  intro P
  induction P with
  | nil => intro root _; cases root <;> rfl
  | cons n p ih =>
    intro root hdir
    obtain ⟨ch, hch⟩ := hdir
    cases root with
    | file d => simp [getE] at hch
    | dir rch =>
      cases hf : findCh rch n with
      | none => simp [getE, hf] at hch
      | some sub =>
        rw [getE, hf] at hch
        cases p with
        | nil =>
          simp only [getE] at hch
          cases hch
          simp [mkdirsOk, hf]
        | cons p2 ps =>
          have hrec : mkdirsOk sub (p2 :: ps) = .ok sub := ih sub ⟨ch, hch⟩
          simp [mkdirsOk, hf, hrec, setCh_findCh_self hf]

theorem mkdirsOk_fresh : ∀ {P : Path} {root root2 : Ent}, P ≠ [] →
    getE root P = none → mkdirsOk root P = .ok root2 →
    getE root2 P = some (.dir []) := by
  intro P
  induction P with
  | nil => intro root root2 hne; exact absurd rfl hne
  | cons n p ih =>
    intro root root2 _ hnone h
    cases root with
    | file d => simp [mkdirsOk] at h
    | dir rch =>
      cases p with
      | nil =>
        cases hf : findCh rch n with
        | some sub => simp [getE, hf] at hnone
        | none =>
          simp only [mkdirsOk, hf, Except.ok.injEq] at h
          subst h
          simp [getE, findCh_setCh_self]
      | cons p2 ps =>
        cases hf : findCh rch n with
        | some sub =>
          rw [getE, hf] at hnone
          cases hrec : mkdirsOk sub (p2 :: ps) with
          | error m => simp [mkdirsOk, hf, hrec] at h
          | ok sub' =>
            simp only [mkdirsOk, hf, hrec, Except.ok.injEq] at h
            subst h
            rw [getE, findCh_setCh_self]
            exact ih (by simp) hnone hrec
        | none =>
          cases hrec : mkdirsOk (.dir []) (p2 :: ps) with
          | error m => simp [mkdirsOk, hf, hrec] at h
          | ok sub' =>
            simp only [mkdirsOk, hf, hrec, Except.ok.injEq] at h
            subst h
            rw [getE, findCh_setCh_self]
            exact ih (by simp) (by rfl) hrec

theorem copyList_frame_each {D q : Path} :
    ∀ {items : List (String × Ent)} {root root2 : Ent},
    copyList root D items = .ok root2 →
    (∀ k ∈ items.map Prod.fst, diverge (D ++ [k]) q = true) →
    getE root2 q = getE root q := by
  intro items
  induction items with
  | nil =>
    intro root root2 h _
    unfold copyList at h
    cases h
    rfl
  | cons ke rest ih =>
    intro root root2 h hdv
    obtain ⟨k, e⟩ := ke
    unfold copyList at h
    cases hci : copyInto root D k e with
    | error m => rw [hci] at h; cases h
    | ok r =>
      rw [hci] at h
      rw [ih h (fun k' hk' => hdv k' (by simp [hk'])),
        copyInto_frame hci (hdv k (by simp))]

theorem mergeItems_eq_copyList {srcP tgtP : Path}
    (hdv : diverge srcP tgtP = true) :
    ∀ {sc : List (String × Ent)} {root : Ent},
    (∀ ke ∈ sc, getE root (srcP ++ [ke.1]) = some ke.2) →
    mergeItems root srcP tgtP (sc.map Prod.fst) = copyList root tgtP sc := by
  intro sc
  induction sc with
  | nil => intro root _; rfl
  | cons ke rest ih =>
    intro root hread
    obtain ⟨k, e⟩ := ke
    have hk : getE root (srcP ++ [k]) = some e := hread (k, e) (by simp)
    show mergeItems root srcP tgtP (k :: rest.map Prod.fst) = _
    unfold mergeItems copyList
    cases e with
    | dir ch =>
      simp only [hk]
      cases hci : copyInto root tgtP k (.dir ch) with
      | error m => simp only [hci]
      | ok r =>
        simp only [hci]
        have hread' : ∀ ke' ∈ rest, getE r (srcP ++ [ke'.1]) = some ke'.2 := by
          intro ke' hm
          rw [copyInto_frame hci
            (diverge_extend [k] [ke'.1] (by rw [diverge_symm]; exact hdv))]
          exact hread ke' (by simp [hm])
        exact ih hread'
    | file d =>
      simp only [hk]
      have hcdef : copyInto root tgtP k (.file d) = copy2E root d (tgtP ++ [k]) k := rfl
      rw [← hcdef]
      cases hcires : copyInto root tgtP k (.file d) with
      | error m => simp only [hcires]
      | ok r =>
        simp only [hcires]
        have hread' : ∀ ke' ∈ rest, getE r (srcP ++ [ke'.1]) = some ke'.2 := by
          intro ke' hm
          rw [copyInto_frame hcires
            (diverge_extend [k] [ke'.1] (by rw [diverge_symm]; exact hdv))]
          exact hread ke' (by simp [hm])
        exact ih hread'

theorem getE_dir_single (ch : List (String × Ent)) (k : String) :
    getE (.dir ch) [k] = findCh ch k := by
  cases hf : findCh ch k <;> simp [getE, hf]

theorem compat_none (e : Ent) : compat none e = true := by
  cases e <;> simp [compat]

theorem compat_dir_file (tch : List (String × Ent)) (d : String) :
    compat (some (.dir tch)) (.file d) = false := by
  simp [compat]

theorem compat_file_dir (d : String) (sch : List (String × Ent)) :
    compat (some (.file d)) (.dir sch) = false := by
  simp [compat]

theorem compat_dir_dir (tch sch : List (String × Ent)) :
    compat (some (.dir tch)) (.dir sch) = compatList tch sch := by
  simp [compat]

theorem wfEnt_dir (ch : List (String × Ent)) : wfEnt (.dir ch) = wfCh ch := by
  simp [wfEnt]

theorem copy_values_all :
    (∀ (root : Ent) (dst : Path) (name : String) (e : Ent),
      ∀ (root2 : Ent), copyInto root dst name e = .ok root2 →
        compat (getE root (dst ++ [name])) e = true → wfEnt e = true →
        (∀ (p : Path) (d : String), getE e p = some (.file d) →
          getE root2 ((dst ++ [name]) ++ p) = some (.file d)) ∧
        (∀ (p : Path) (ch' : List (String × Ent)), getE e p = some (.dir ch') →
          ∃ ch2, getE root2 ((dst ++ [name]) ++ p) = some (.dir ch2)) ∧
        (∀ (p : Path), getE e p = none → okBranch e p = true →
          getE root2 ((dst ++ [name]) ++ p) = getE root ((dst ++ [name]) ++ p))) ∧
    (∀ (root : Ent) (dst : Path) (items : List (String × Ent)),
      ∀ (root2 : Ent), copyList root dst items = .ok root2 →
        wfCh items = true →
        (∀ ke ∈ items, compat (getE root (dst ++ [ke.1])) ke.2 = true) →
        (∀ (k : String) (e : Ent) (p : Path) (d : String),
          findCh items k = some e → getE e p = some (.file d) →
          getE root2 ((dst ++ [k]) ++ p) = some (.file d)) ∧
        (∀ (k : String) (e : Ent) (p : Path) (ch' : List (String × Ent)),
          findCh items k = some e → getE e p = some (.dir ch') →
          ∃ ch2, getE root2 ((dst ++ [k]) ++ p) = some (.dir ch2)) ∧
        (∀ (k : String) (p : Path), findCh items k = none →
          getE root2 ((dst ++ [k]) ++ p) = getE root ((dst ++ [k]) ++ p)) ∧
        (∀ (k : String) (e : Ent) (p : Path), findCh items k = some e →
          getE e p = none → okBranch e p = true →
          getE root2 ((dst ++ [k]) ++ p) = getE root ((dst ++ [k]) ++ p))) := by
  have h1 : ∀ (root : Ent) (dst : Path) (name data : String),
      ∀ (root2 : Ent), copyInto root dst name (.file data) = .ok root2 →
        compat (getE root (dst ++ [name])) (.file data) = true →
        wfEnt (.file data) = true →
        (∀ (p : Path) (d : String), getE (Ent.file data) p = some (.file d) →
          getE root2 ((dst ++ [name]) ++ p) = some (.file d)) ∧
        (∀ (p : Path) (ch' : List (String × Ent)),
          getE (Ent.file data) p = some (.dir ch') →
          ∃ ch2, getE root2 ((dst ++ [name]) ++ p) = some (.dir ch2)) ∧
        (∀ (p : Path), getE (Ent.file data) p = none →
          okBranch (Ent.file data) p = true →
          getE root2 ((dst ++ [name]) ++ p) = getE root ((dst ++ [name]) ++ p)) := by
    intro root dst name data root2 h hcomp _
    unfold copyInto copy2E at h
    have hw : writeFileAt root (dst ++ [name]) data = .ok root2 := by
      cases hg : getE root (dst ++ [name]) with
      | none => rw [hg] at h; exact h
      | some e0 =>
        cases e0 with
        | file d0 => rw [hg] at h; exact h
        | dir tch => rw [hg, compat_dir_file] at hcomp; cases hcomp
    refine ⟨?_, ?_, ?_⟩
    · intro p d hp
      cases p with
      | nil =>
        simp only [getE, Option.some.injEq, Ent.file.injEq] at hp
        subst hp
        simpa using writeFileAt_self hw
      | cons x xs => rw [getE_file_cons] at hp; cases hp
    · intro p ch' hp
      cases p with
      | nil => simp [getE] at hp
      | cons x xs => rw [getE_file_cons] at hp; cases hp
    · intro p hnone hok
      cases p with
      | nil => simp [getE] at hnone
      | cons x xs => simp [okBranch] at hok
  have h2 : ∀ (root : Ent) (dst : Path) (name : String) (a : List (String × Ent))
      (sub' : Ent), mkdirsOk root (dst ++ [name]) = Except.ok sub' →
      (∀ (root2 : Ent), copyList sub' (dst ++ [name]) a = .ok root2 →
        wfCh a = true →
        (∀ ke ∈ a, compat (getE sub' ((dst ++ [name]) ++ [ke.1])) ke.2 = true) →
        (∀ (k : String) (e : Ent) (p : Path) (d : String),
          findCh a k = some e → getE e p = some (.file d) →
          getE root2 (((dst ++ [name]) ++ [k]) ++ p) = some (.file d)) ∧
        (∀ (k : String) (e : Ent) (p : Path) (ch' : List (String × Ent)),
          findCh a k = some e → getE e p = some (.dir ch') →
          ∃ ch2, getE root2 (((dst ++ [name]) ++ [k]) ++ p) = some (.dir ch2)) ∧
        (∀ (k : String) (p : Path), findCh a k = none →
          getE root2 (((dst ++ [name]) ++ [k]) ++ p) =
            getE sub' (((dst ++ [name]) ++ [k]) ++ p)) ∧
        (∀ (k : String) (e : Ent) (p : Path), findCh a k = some e →
          getE e p = none → okBranch e p = true →
          getE root2 (((dst ++ [name]) ++ [k]) ++ p) =
            getE sub' (((dst ++ [name]) ++ [k]) ++ p))) →
      ∀ (root2 : Ent), copyInto root dst name (.dir a) = .ok root2 →
        compat (getE root (dst ++ [name])) (.dir a) = true →
        wfEnt (.dir a) = true →
        (∀ (p : Path) (d : String), getE (Ent.dir a) p = some (.file d) →
          getE root2 ((dst ++ [name]) ++ p) = some (.file d)) ∧
        (∀ (p : Path) (ch' : List (String × Ent)),
          getE (Ent.dir a) p = some (.dir ch') →
          ∃ ch2, getE root2 ((dst ++ [name]) ++ p) = some (.dir ch2)) ∧
        (∀ (p : Path), getE (Ent.dir a) p = none →
          okBranch (Ent.dir a) p = true →
          getE root2 ((dst ++ [name]) ++ p) = getE root ((dst ++ [name]) ++ p)) := by
    intro root dst name a sub' hmk ih root2 h hcomp hwf
    unfold copyInto at h
    rw [hmk] at h
    have hwfa : wfCh a = true := by rw [wfEnt_dir] at hwf; exact hwf
    cases hg : getE root (dst ++ [name]) with
    | some e0 =>
      cases e0 with
      | file d0 => rw [hg, compat_file_dir] at hcomp; cases hcomp
      | dir tch =>
        rw [hg, compat_dir_dir] at hcomp
        have hnoop := mkdirsOk_noop (dst ++ [name]) root ⟨tch, hg⟩
        rw [hnoop] at hmk
        injection hmk with hsr
        subst hsr
        have hHC : ∀ ke ∈ a,
            compat (getE root ((dst ++ [name]) ++ [ke.1])) ke.2 = true := by
          intro ke hm
          have hread : getE root ((dst ++ [name]) ++ [ke.1]) = findCh tch ke.1 := by
            rw [getE_append, hg, Option.some_bind, getE_dir_single]
          rw [hread]
          exact compatList_find hcomp hm
        obtain ⟨F2, D2, P2a, P2b⟩ := ih root2 h hwfa hHC
        refine ⟨?_, ?_, ?_⟩
        · intro p d hp
          cases p with
          | nil => simp [getE] at hp
          | cons k p' =>
            cases hfk : findCh a k with
            | none => simp [getE, hfk] at hp
            | some e' =>
              simp only [getE, hfk] at hp
              have hassoc : ((dst ++ [name]) ++ [k]) ++ p' =
                  (dst ++ [name]) ++ (k :: p') := by simp
              rw [← hassoc]
              exact F2 k e' p' d hfk hp
        · intro p ch' hp
          cases p with
          | nil =>
            simp only [getE, Option.some.injEq] at hp
            have := copyList_keeps h (by simp : dst ++ [name] = (dst ++ [name]) ++ [])
              ⟨tch, hg⟩
            simpa using this
          | cons k p' =>
            cases hfk : findCh a k with
            | none => simp [getE, hfk] at hp
            | some e' =>
              simp only [getE, hfk] at hp
              have hassoc : ((dst ++ [name]) ++ [k]) ++ p' =
                  (dst ++ [name]) ++ (k :: p') := by simp
              rw [← hassoc]
              exact D2 k e' p' ch' hfk hp
        · intro p hnone hok
          cases p with
          | nil => simp [getE] at hnone
          | cons k p' =>
            have hassoc : ((dst ++ [name]) ++ [k]) ++ p' =
                (dst ++ [name]) ++ (k :: p') := by simp
            rw [← hassoc]
            cases hfk : findCh a k with
            | none => exact P2a k p' hfk
            | some e' =>
              simp only [getE, hfk] at hnone
              simp only [okBranch, hfk] at hok
              exact P2b k e' p' hfk hnone hok
    | none =>
      have hfresh : getE sub' (dst ++ [name]) = some (.dir []) :=
        mkdirsOk_fresh (by simp) hg hmk
      have hHC : ∀ ke ∈ a,
          compat (getE sub' ((dst ++ [name]) ++ [ke.1])) ke.2 = true := by
        intro ke _
        have hread : getE sub' ((dst ++ [name]) ++ [ke.1]) = none := by
          rw [getE_append, hfresh, Option.some_bind, getE_dir_single]
          rfl
        rw [hread]
        exact compat_none ke.2
      obtain ⟨F2, D2, P2a, P2b⟩ := ih root2 h hwfa hHC
      have hbelow : ∀ (k : String) (p' : Path),
          getE sub' (((dst ++ [name]) ++ [k]) ++ p') = none := by
        intro k p'
        have hassoc : ((dst ++ [name]) ++ [k]) ++ p' =
            (dst ++ [name]) ++ (k :: p') := by simp
        rw [hassoc, getE_append, hfresh, Option.some_bind]
        rfl
      refine ⟨?_, ?_, ?_⟩
      · intro p d hp
        cases p with
        | nil => simp [getE] at hp
        | cons k p' =>
          cases hfk : findCh a k with
          | none => simp [getE, hfk] at hp
          | some e' =>
            simp only [getE, hfk] at hp
            have hassoc : ((dst ++ [name]) ++ [k]) ++ p' =
                (dst ++ [name]) ++ (k :: p') := by simp
            rw [← hassoc]
            exact F2 k e' p' d hfk hp
      · intro p ch' hp
        cases p with
        | nil =>
          have := copyList_keeps h (by simp : dst ++ [name] = (dst ++ [name]) ++ [])
            ⟨[], hfresh⟩
          simpa using this
        | cons k p' =>
          cases hfk : findCh a k with
          | none => simp [getE, hfk] at hp
          | some e' =>
            simp only [getE, hfk] at hp
            have hassoc : ((dst ++ [name]) ++ [k]) ++ p' =
                (dst ++ [name]) ++ (k :: p') := by simp
            rw [← hassoc]
            exact D2 k e' p' ch' hfk hp
      · intro p hnone hok
        cases p with
        | nil => simp [getE] at hnone
        | cons k p' =>
          have hassoc : ((dst ++ [name]) ++ [k]) ++ p' =
              (dst ++ [name]) ++ (k :: p') := by simp
          have hrhs : getE root ((dst ++ [name]) ++ (k :: p')) = none :=
            none_below (k :: p') hg
          rw [← hassoc] at hrhs
          rw [← hassoc, hrhs]
          cases hfk : findCh a k with
          | none => rw [P2a k p' hfk]; exact hbelow k p'
          | some e' =>
            simp only [getE, hfk] at hnone
            simp only [okBranch, hfk] at hok
            rw [P2b k e' p' hfk hnone hok]
            exact hbelow k p'
  have h3 : ∀ (root : Ent) (dst : Path) (name : String) (a : List (String × Ent))
      (m : String), mkdirsOk root (dst ++ [name]) = Except.error m →
      ∀ (root2 : Ent), copyInto root dst name (.dir a) = .ok root2 →
        compat (getE root (dst ++ [name])) (.dir a) = true →
        wfEnt (.dir a) = true →
        (∀ (p : Path) (d : String), getE (Ent.dir a) p = some (.file d) →
          getE root2 ((dst ++ [name]) ++ p) = some (.file d)) ∧
        (∀ (p : Path) (ch' : List (String × Ent)),
          getE (Ent.dir a) p = some (.dir ch') →
          ∃ ch2, getE root2 ((dst ++ [name]) ++ p) = some (.dir ch2)) ∧
        (∀ (p : Path), getE (Ent.dir a) p = none →
          okBranch (Ent.dir a) p = true →
          getE root2 ((dst ++ [name]) ++ p) = getE root ((dst ++ [name]) ++ p)) := by
    intro root dst name a m hmk root2 h _ _
    unfold copyInto at h
    rw [hmk] at h
    cases h
  have h4 : ∀ (root : Ent) (dst : Path),
      ∀ (root2 : Ent), copyList root dst [] = .ok root2 →
        wfCh ([] : List (String × Ent)) = true →
        (∀ ke ∈ ([] : List (String × Ent)),
          compat (getE root (dst ++ [ke.1])) ke.2 = true) →
        (∀ (k : String) (e : Ent) (p : Path) (d : String),
          findCh [] k = some e → getE e p = some (.file d) →
          getE root2 ((dst ++ [k]) ++ p) = some (.file d)) ∧
        (∀ (k : String) (e : Ent) (p : Path) (ch' : List (String × Ent)),
          findCh [] k = some e → getE e p = some (.dir ch') →
          ∃ ch2, getE root2 ((dst ++ [k]) ++ p) = some (.dir ch2)) ∧
        (∀ (k : String) (p : Path), findCh [] k = none →
          getE root2 ((dst ++ [k]) ++ p) = getE root ((dst ++ [k]) ++ p)) ∧
        (∀ (k : String) (e : Ent) (p : Path), findCh [] k = some e →
          getE e p = none → okBranch e p = true →
          getE root2 ((dst ++ [k]) ++ p) = getE root ((dst ++ [k]) ++ p)) := by
    intro root dst root2 h _ _
    unfold copyList at h
    cases h
    refine ⟨?_, ?_, ?_, ?_⟩
    · intro k e p d hf; cases hf
    · intro k e p ch' hf; cases hf
    · intro k p _; rfl
    · intro k e p hf; cases hf
  have h5 : ∀ (root : Ent) (dst : Path) (k : String) (e : Ent)
      (rest : List (String × Ent)) (sub' : Ent),
      copyInto root dst k e = Except.ok sub' →
      (∀ (root2 : Ent), copyInto root dst k e = .ok root2 →
        compat (getE root (dst ++ [k])) e = true → wfEnt e = true →
        (∀ (p : Path) (d : String), getE e p = some (.file d) →
          getE root2 ((dst ++ [k]) ++ p) = some (.file d)) ∧
        (∀ (p : Path) (ch' : List (String × Ent)), getE e p = some (.dir ch') →
          ∃ ch2, getE root2 ((dst ++ [k]) ++ p) = some (.dir ch2)) ∧
        (∀ (p : Path), getE e p = none → okBranch e p = true →
          getE root2 ((dst ++ [k]) ++ p) = getE root ((dst ++ [k]) ++ p))) →
      (∀ (root2 : Ent), copyList sub' dst rest = .ok root2 →
        wfCh rest = true →
        (∀ ke ∈ rest, compat (getE sub' (dst ++ [ke.1])) ke.2 = true) →
        (∀ (k0 : String) (e0 : Ent) (p : Path) (d : String),
          findCh rest k0 = some e0 → getE e0 p = some (.file d) →
          getE root2 ((dst ++ [k0]) ++ p) = some (.file d)) ∧
        (∀ (k0 : String) (e0 : Ent) (p : Path) (ch' : List (String × Ent)),
          findCh rest k0 = some e0 → getE e0 p = some (.dir ch') →
          ∃ ch2, getE root2 ((dst ++ [k0]) ++ p) = some (.dir ch2)) ∧
        (∀ (k0 : String) (p : Path), findCh rest k0 = none →
          getE root2 ((dst ++ [k0]) ++ p) = getE sub' ((dst ++ [k0]) ++ p)) ∧
        (∀ (k0 : String) (e0 : Ent) (p : Path), findCh rest k0 = some e0 →
          getE e0 p = none → okBranch e0 p = true →
          getE root2 ((dst ++ [k0]) ++ p) = getE sub' ((dst ++ [k0]) ++ p))) →
      ∀ (root2 : Ent), copyList root dst ((k, e) :: rest) = .ok root2 →
        wfCh ((k, e) :: rest) = true →
        (∀ ke ∈ (k, e) :: rest, compat (getE root (dst ++ [ke.1])) ke.2 = true) →
        (∀ (k0 : String) (e0 : Ent) (p : Path) (d : String),
          findCh ((k, e) :: rest) k0 = some e0 → getE e0 p = some (.file d) →
          getE root2 ((dst ++ [k0]) ++ p) = some (.file d)) ∧
        (∀ (k0 : String) (e0 : Ent) (p : Path) (ch' : List (String × Ent)),
          findCh ((k, e) :: rest) k0 = some e0 → getE e0 p = some (.dir ch') →
          ∃ ch2, getE root2 ((dst ++ [k0]) ++ p) = some (.dir ch2)) ∧
        (∀ (k0 : String) (p : Path), findCh ((k, e) :: rest) k0 = none →
          getE root2 ((dst ++ [k0]) ++ p) = getE root ((dst ++ [k0]) ++ p)) ∧
        (∀ (k0 : String) (e0 : Ent) (p : Path),
          findCh ((k, e) :: rest) k0 = some e0 →
          getE e0 p = none → okBranch e0 p = true →
          getE root2 ((dst ++ [k0]) ++ p) = getE root ((dst ++ [k0]) ++ p)) := by
    intro root dst k e rest sub' hci ih1 ih2 root2 h hwf hcomp
    unfold copyList at h
    rw [hci] at h
    unfold wfCh at hwf
    simp only [Bool.and_eq_true] at hwf
    obtain ⟨⟨hknotin, hwe⟩, hwrest⟩ := hwf
    have hknone : findCh rest k = none := by
      cases hfr : findCh rest k with
      | none => rfl
      | some _ => rw [hfr] at hknotin; cases hknotin
    have hkey_ne : ∀ k' ∈ rest.map Prod.fst, k' ≠ k := by
      intro k' hk' hkk
      rw [hkk] at hk'
      have hsome := findCh_isSome_of_mem_keys hk'
      rw [hknone] at hsome
      cases hsome
    have hck : compat (getE root (dst ++ [k])) e = true := hcomp (k, e) (by simp)
    obtain ⟨F1, D1, P1⟩ := ih1 sub' hci hck hwe
    have hHCrest : ∀ ke ∈ rest, compat (getE sub' (dst ++ [ke.1])) ke.2 = true := by
      intro ke' hm'
      have hne : k ≠ ke'.1 :=
        fun hkk => hkey_ne ke'.1 (List.mem_map.mpr ⟨ke', hm', rfl⟩) hkk.symm
      rw [copyInto_frame hci (diverge_append_ne dst [] [] hne)]
      exact hcomp ke' (by simp [hm'])
    obtain ⟨F2, D2, P2a, P2b⟩ := ih2 root2 h hwrest hHCrest
    have hframe_rest : ∀ (p : Path),
        getE root2 ((dst ++ [k]) ++ p) = getE sub' ((dst ++ [k]) ++ p) := by
      intro p
      apply copyList_frame_each h
      intro k' hk'
      have hassoc : (dst ++ [k]) ++ p = dst ++ (k :: p) := by simp
      rw [hassoc]
      exact diverge_append_ne dst [] p (hkey_ne k' hk')
    refine ⟨?_, ?_, ?_, ?_⟩
    · intro k0 e0 p d hf hp
      by_cases hk0 : k = k0
      · subst hk0
        simp only [findCh, eq_self_iff_true, if_true, Option.some.injEq] at hf
        subst hf
        rw [hframe_rest p]
        exact F1 p d hp
      · simp only [findCh, if_neg hk0] at hf
        exact F2 k0 e0 p d hf hp
    · intro k0 e0 p ch' hf hp
      by_cases hk0 : k = k0
      · subst hk0
        simp only [findCh, eq_self_iff_true, if_true, Option.some.injEq] at hf
        subst hf
        rw [hframe_rest p]
        exact D1 p ch' hp
      · simp only [findCh, if_neg hk0] at hf
        exact D2 k0 e0 p ch' hf hp
    · intro k0 p hf
      by_cases hk0 : k = k0
      · subst hk0
        simp only [findCh, eq_self_iff_true, if_true] at hf
        cases hf
      · simp only [findCh, if_neg hk0] at hf
        rw [P2a k0 p hf]
        have hassoc : (dst ++ [k0]) ++ p = dst ++ (k0 :: p) := by simp
        rw [hassoc]
        exact copyInto_frame hci
          (by rw [show dst ++ [k] = dst ++ k :: [] from rfl]
              exact diverge_append_ne dst [] p hk0)
    · intro k0 e0 p hf hp hok
      by_cases hk0 : k = k0
      · subst hk0
        simp only [findCh, eq_self_iff_true, if_true, Option.some.injEq] at hf
        subst hf
        rw [hframe_rest p]
        exact P1 p hp hok
      · simp only [findCh, if_neg hk0] at hf
        rw [P2b k0 e0 p hf hp hok]
        have hassoc : (dst ++ [k0]) ++ p = dst ++ (k0 :: p) := by simp
        rw [hassoc]
        exact copyInto_frame hci
          (by rw [show dst ++ [k] = dst ++ k :: [] from rfl]
              exact diverge_append_ne dst [] p hk0)
  have h6 : ∀ (root : Ent) (dst : Path) (k : String) (e : Ent)
      (rest : List (String × Ent)) (m : String),
      copyInto root dst k e = Except.error m →
      (∀ (root2 : Ent), copyInto root dst k e = .ok root2 →
        compat (getE root (dst ++ [k])) e = true → wfEnt e = true →
        (∀ (p : Path) (d : String), getE e p = some (.file d) →
          getE root2 ((dst ++ [k]) ++ p) = some (.file d)) ∧
        (∀ (p : Path) (ch' : List (String × Ent)), getE e p = some (.dir ch') →
          ∃ ch2, getE root2 ((dst ++ [k]) ++ p) = some (.dir ch2)) ∧
        (∀ (p : Path), getE e p = none → okBranch e p = true →
          getE root2 ((dst ++ [k]) ++ p) = getE root ((dst ++ [k]) ++ p))) →
      ∀ (root2 : Ent), copyList root dst ((k, e) :: rest) = .ok root2 →
        wfCh ((k, e) :: rest) = true →
        (∀ ke ∈ (k, e) :: rest, compat (getE root (dst ++ [ke.1])) ke.2 = true) →
        (∀ (k0 : String) (e0 : Ent) (p : Path) (d : String),
          findCh ((k, e) :: rest) k0 = some e0 → getE e0 p = some (.file d) →
          getE root2 ((dst ++ [k0]) ++ p) = some (.file d)) ∧
        (∀ (k0 : String) (e0 : Ent) (p : Path) (ch' : List (String × Ent)),
          findCh ((k, e) :: rest) k0 = some e0 → getE e0 p = some (.dir ch') →
          ∃ ch2, getE root2 ((dst ++ [k0]) ++ p) = some (.dir ch2)) ∧
        (∀ (k0 : String) (p : Path), findCh ((k, e) :: rest) k0 = none →
          getE root2 ((dst ++ [k0]) ++ p) = getE root ((dst ++ [k0]) ++ p)) ∧
        (∀ (k0 : String) (e0 : Ent) (p : Path),
          findCh ((k, e) :: rest) k0 = some e0 →
          getE e0 p = none → okBranch e0 p = true →
          getE root2 ((dst ++ [k0]) ++ p) = getE root ((dst ++ [k0]) ++ p)) := by
    intro root dst k e rest m hci _ root2 h _ _
    unfold copyList at h
    rw [hci] at h
    cases h
  exact ⟨fun root dst name e =>
      copyInto.induct _ _ h1 h2 h3 h4 h5 h6 root dst name e,
    fun root dst items =>
      copyList.induct _ _ h1 h2 h3 h4 h5 h6 root dst items⟩

/-- C2: `move_folders`, merge case — when the named subfolder exists as a
directory on both sides (source and target paths divergent, source child
names distinct, overlapping entries of compatible kinds), the per-item
copy loop merges the source subtree into the target subfolder: every
source file lands at its path under `target/name` with the source's
contents (overwriting a conflicting target file), every source directory
exists as a directory there, pre-existing target content at paths the
source does not populate keeps its previous value, and the source
subfolder is removed afterwards. -/
theorem move_folders_merge_case (root root2 : Ent) (src tgt : Path)
    (name : String) (sc tc : List (String × Ent))
    (hsrc : getE root (src ++ [name]) = some (.dir sc))
    (htgt : getE root (tgt ++ [name]) = some (.dir tc))
    (hdv : diverge (src ++ [name]) (tgt ++ [name]) = true)
    (hwf : wfCh sc = true)
    (hcomp : compatList tc sc = true)
    (h : move_folders root [name] src tgt = .ok root2) :
    (∀ (p : Path) (d : String), getE (Ent.dir sc) p = some (.file d) →
      getE root2 ((tgt ++ [name]) ++ p) = some (.file d)) ∧
    (∀ (p : Path) (ch' : List (String × Ent)),
      getE (Ent.dir sc) p = some (.dir ch') →
      ∃ ch2, getE root2 ((tgt ++ [name]) ++ p) = some (.dir ch2)) ∧
    (∀ (p : Path), getE (Ent.dir sc) p = none →
      okBranch (Ent.dir sc) p = true →
      getE root2 ((tgt ++ [name]) ++ p) = getE root ((tgt ++ [name]) ++ p)) ∧
    getE root2 (src ++ [name]) = none := by
  unfold move_folders at h
  rw [create_folder_of_exists (getE_prefix_isSome htgt)] at h
  unfold move_foldersLoop at h
  simp only [show check_folder_exists root (src ++ [name]) = true from by
    simp [check_folder_exists, hsrc], if_true] at h
  simp only [show check_folder_exists root (tgt ++ [name]) = true from by
    simp [check_folder_exists, htgt], if_true] at h
  simp only [show list_files root (src ++ [name]) = .ok (sc.map Prod.fst) from by
    simp [list_files, hsrc]] at h
  have hread : ∀ ke ∈ sc, getE root ((src ++ [name]) ++ [ke.1]) = some ke.2 := by
    intro ke hm
    rw [getE_append, hsrc, Option.some_bind, getE_dir_single]
    exact wfCh_find_mem hwf hm
  rw [mergeItems_eq_copyList hdv hread] at h
  cases hcl : copyList root (tgt ++ [name]) sc with
  | error m => simp [hcl] at h
  | ok rC =>
  simp only [hcl] at h
  cases hrm : rmtreeE rC (src ++ [name]) with
  | error m => simp [hrm] at h
  | ok r2 =>
  simp only [hrm] at h
  have hr2 : r2 = root2 := by
    unfold move_foldersLoop at h
    cases h
    rfl
  subst hr2
  have hHC : ∀ ke ∈ sc,
      compat (getE root ((tgt ++ [name]) ++ [ke.1])) ke.2 = true := by
    intro ke hm
    rw [getE_append, htgt, Option.some_bind, getE_dir_single]
    exact compatList_find hcomp hm
  obtain ⟨F2, D2, P2a, P2b⟩ :=
    copy_values_all.2 root (tgt ++ [name]) sc rC hcl hwf hHC
  have hfr : ∀ (p : Path),
      getE r2 ((tgt ++ [name]) ++ p) = getE rC ((tgt ++ [name]) ++ p) := by
    intro p
    exact rmtreeE_frame (by simpa using diverge_extend [] p hdv) hrm
  have hassoc : ∀ (k : String) (p' : Path),
      ((tgt ++ [name]) ++ [k]) ++ p' = (tgt ++ [name]) ++ (k :: p') := by
    intro k p'; simp
  refine ⟨?_, ?_, ?_, ?_⟩
  · intro p d hp
    cases p with
    | nil => simp [getE] at hp
    | cons k p' =>
      cases hfk : findCh sc k with
      | none => simp [getE, hfk] at hp
      | some e' =>
        simp only [getE, hfk] at hp
        rw [hfr (k :: p'), ← hassoc k p']
        exact F2 k e' p' d hfk hp
  · intro p ch' hp
    cases p with
    | nil =>
      rw [hfr []]
      have := copyList_keeps hcl
        (by simp : tgt ++ [name] = (tgt ++ [name]) ++ []) ⟨tc, htgt⟩
      simpa using this
    | cons k p' =>
      cases hfk : findCh sc k with
      | none => simp [getE, hfk] at hp
      | some e' =>
        simp only [getE, hfk] at hp
        rw [hfr (k :: p'), ← hassoc k p']
        exact D2 k e' p' ch' hfk hp
  · intro p hnone hok
    cases p with
    | nil => simp [getE] at hnone
    | cons k p' =>
      rw [hfr (k :: p'), ← hassoc k p']
      cases hfk : findCh sc k with
      | none => exact P2a k p' hfk
      | some e' =>
        simp only [getE, hfk] at hnone
        simp only [okBranch, hfk] at hok
        exact P2b k e' p' hfk hnone hok
  · exact rmtreeE_self hrm

/-- Witness for C2: the target subfolder pre-exists holding `f1` with old
contents; the source subfolder holds `f1` with new contents and `f2`;
after the call the target holds the new `f1` and `f2`, and the source
subfolder is gone. -/
theorem move_folders_merge_case_witness :
    getE (.dir [("src", .dir []),
        ("tgt", .dir [("sub", .dir [("f1", .file "new"), ("f2", .file "y")])])])
      ((["tgt"] ++ ["sub"]) ++ ["f1"]) = some (.file "new") ∧
    getE (.dir [("src", .dir []),
        ("tgt", .dir [("sub", .dir [("f1", .file "new"), ("f2", .file "y")])])])
      ((["tgt"] ++ ["sub"]) ++ ["f2"]) = some (.file "y") ∧
    getE (.dir [("src", .dir []),
        ("tgt", .dir [("sub", .dir [("f1", .file "new"), ("f2", .file "y")])])])
      (["src"] ++ ["sub"]) = none :=
  ⟨move_folders_merge_case
      (.dir [("src", .dir [("sub", .dir [("f1", .file "new"), ("f2", .file "y")])]),
        ("tgt", .dir [("sub", .dir [("f1", .file "old")])])])
      (.dir [("src", .dir []),
        ("tgt", .dir [("sub", .dir [("f1", .file "new"), ("f2", .file "y")])])])
      ["src"] ["tgt"] "sub"
      [("f1", .file "new"), ("f2", .file "y")] [("f1", .file "old")]
      (by rfl) (by rfl) (by rfl) (by rfl) (by rfl) (by rfl)
    |>.1 ["f1"] "new" (by rfl),
   move_folders_merge_case
      (.dir [("src", .dir [("sub", .dir [("f1", .file "new"), ("f2", .file "y")])]),
        ("tgt", .dir [("sub", .dir [("f1", .file "old")])])])
      (.dir [("src", .dir []),
        ("tgt", .dir [("sub", .dir [("f1", .file "new"), ("f2", .file "y")])])])
      ["src"] ["tgt"] "sub"
      [("f1", .file "new"), ("f2", .file "y")] [("f1", .file "old")]
      (by rfl) (by rfl) (by rfl) (by rfl) (by rfl) (by rfl)
    |>.1 ["f2"] "y" (by rfl),
   move_folders_merge_case
      (.dir [("src", .dir [("sub", .dir [("f1", .file "new"), ("f2", .file "y")])]),
        ("tgt", .dir [("sub", .dir [("f1", .file "old")])])])
      (.dir [("src", .dir []),
        ("tgt", .dir [("sub", .dir [("f1", .file "new"), ("f2", .file "y")])])])
      ["src"] ["tgt"] "sub"
      [("f1", .file "new"), ("f2", .file "y")] [("f1", .file "old")]
      (by rfl) (by rfl) (by rfl) (by rfl) (by rfl) (by rfl)
    |>.2.2.2⟩

end WotUnpack
